import Mathlib

/-!
Verification of the pass pipeline of `passes.cc` (a parallel ELF linker).

The definitions below are shallow embeddings of the functions of
`src/passes.cc`: machine integers are modelled as `Nat` (overflow is noted
where it matters), `std::vector` as `List`, and the parallel loops as the
sequential computation they are specified to be equivalent to.
Helpers living in `mold.h` (which is not part of the sources) are modelled
from the specification; each such definition says so in its doc comment.
-/

namespace Mold

/-- Modelled from the spec: page size of the single supported 64-bit target. -/
def PAGE_SIZE : Nat := 4096

/-- Modelled from the spec: `align_to(val, align)` rounds `val` up to the next
multiple of `align` ("rounded up to `sh_addralign`"); `align_to` itself lives
in `mold.h`, outside the given sources. For `align = 0` it returns `val`. -/
def align_to (val align : Nat) : Nat :=
  if align = 0 then val else (val + align - 1) / align * align

/-- Embedding of `align_with_skew` (passes.cc:767): returns
`align_to(val + align - skew, align) - align + skew`. The `u64` arithmetic is
modelled on `Nat`; the claims constrain the arguments so that no overflow or
underflow occurs. -/
def align_with_skew (val align skew : Nat) : Nat :=
  align_to (val + align - skew) align - align + skew

theorem align_to_ge (val align : Nat) : val ≤ align_to val align := by
  unfold align_to
  split
  · exact Nat.le_refl _
  · rename_i h
    have h1 : 0 < align := Nat.pos_of_ne_zero h
    have := Nat.lt_div_mul_add (a := val + align - 1) h1
    omega

theorem align_to_lt (val align : Nat) (h : 0 < align) :
    align_to val align < val + align := by
  unfold align_to
  rw [if_neg (Nat.pos_iff_ne_zero.mp h)]
  have := Nat.div_mul_le_self (val + align - 1) align
  omega

theorem align_to_mod (val align : Nat) (h : 0 < align) :
    align_to val align % align = 0 := by
  unfold align_to
  rw [if_neg (Nat.pos_iff_ne_zero.mp h)]
  exact Nat.mul_mod_left _ _

theorem align_to_dvd (val align : Nat) (h : 0 < align) :
    align ∣ align_to val align :=
  Nat.dvd_of_mod_eq_zero (align_to_mod val align h)

theorem align_with_skew_ge (val align skew : Nat)
    (ha : 0 < align) (hs : skew < align) :
    val ≤ align_with_skew val align skew := by
  unfold align_with_skew
  have h1 := align_to_ge (val + align - skew) align
  omega

theorem align_with_skew_lt (val align skew : Nat)
    (ha : 0 < align) (hs : skew < align) :
    align_with_skew val align skew < val + align := by
  unfold align_with_skew
  have h1 := align_to_lt (val + align - skew) align ha
  omega

theorem align_with_skew_mod (val align skew : Nat)
    (ha : 0 < align) (hs : skew < align) :
    align_with_skew val align skew % align = skew := by
  unfold align_with_skew
  obtain ⟨k, hk⟩ := align_to_dvd (val + align - skew) align ha
  have hge := align_to_ge (val + align - skew) align
  have hk1 : 1 ≤ k := by
    rcases Nat.eq_zero_or_pos k with h0 | h1
    · subst h0
      rw [Nat.mul_zero] at hk
      omega
    · exact h1
  obtain ⟨j, hj⟩ : ∃ j, k = j + 1 := ⟨k - 1, by omega⟩
  subst hj
  rw [hk, Nat.mul_succ]
  have h2 : align * j + align - align + skew = align * j + skew := by omega
  rw [h2, Nat.mul_add_mod]
  exact Nat.mod_eq_of_lt hs

/-- C8: for `align > 0`, `skew < align` and no `u64` overflow,
`align_with_skew val align skew` is the least `n` with `n ≥ val` and
`n % align = skew`. -/
theorem align_with_skew_least (val align skew : Nat)
    (ha : 0 < align) (hs : skew < align)
    (hno : val + align - skew ≤ 2 ^ 64 - 1) :
    val ≤ align_with_skew val align skew ∧
    align_with_skew val align skew % align = skew ∧
    ∀ n, val ≤ n → n % align = skew → align_with_skew val align skew ≤ n := by
  refine ⟨align_with_skew_ge val align skew ha hs,
          align_with_skew_mod val align skew ha hs, ?_⟩
  intro n hn hmod
  by_contra hlt
  push_neg at hlt
  have hrm := align_with_skew_mod val align skew ha hs
  have hrl := align_with_skew_lt val align skew ha hs
  set r := align_with_skew val align skew with hr
  have hmodeq : n ≡ r [MOD align] := by
    show n % align = r % align
    rw [hrm, hmod]
  have hdvd : align ∣ r - n := (Nat.modEq_iff_dvd' hlt.le).mp hmodeq
  have hpos : 0 < r - n := by omega
  have := Nat.le_of_dvd hpos hdvd
  omega

theorem align_with_skew_least_witness :
    0 < 4 ∧ 3 < 4 ∧ 5 + 4 - 3 ≤ 2 ^ 64 - 1 ∧
    (5 ≤ align_with_skew 5 4 3 ∧
     align_with_skew 5 4 3 % 4 = 3 ∧
     ∀ n, 5 ≤ n → n % 4 = 3 → align_with_skew 5 4 3 ≤ n) :=
  ⟨by decide, by decide, by decide,
   align_with_skew_least 5 4 3 (by decide) (by decide) (by decide)⟩

/-- Embedding of `split` (passes.cc:239): chops a vector into consecutive
slices of `unit` elements, the last slice holding the remainder. The C++
function loops forever when `unit = 0` (and asserts a non-empty input); we
return `[]` in that case to stay total. -/
def split {α : Type} (input : List α) (unit : Nat) : List (List α) :=
  if h : unit = 0 then []
  else if hle : unit ≤ input.length then
    input.take unit :: split (input.drop unit) unit
  else if input.isEmpty then [] else [input]
termination_by input.length
decreasing_by
  simp only [List.length_drop]
  omega

theorem split_flatten {α : Type} (input : List α) (unit : Nat)
    (h : 1 ≤ unit) : (split input unit).flatten = input := by
  revert h
  induction input, unit using split.induct with
  | case1 l => intro h; exact absurd h (by decide)
  | case2 l u hu hle ih =>
    intro h
    rw [split, dif_neg hu, dif_pos hle]
    simp only [List.flatten_cons, ih h, List.take_append_drop]
  | case3 l u hu hle hemp =>
    intro h
    rw [split, dif_neg hu, dif_neg hle, if_pos hemp]
    simp only [List.flatten_nil]
    exact (List.isEmpty_iff.mp hemp).symm
  | case4 l u hu hle hemp =>
    intro h
    rw [split, dif_neg hu, dif_neg hle, if_neg hemp]
    simp

theorem split_mem_length {α : Type} (input : List α) (unit : Nat)
    (h : 1 ≤ unit) :
    ∀ s ∈ split input unit, s ≠ [] ∧ s.length ≤ unit := by
  revert h
  induction input, unit using split.induct with
  | case1 l => intro h; exact absurd h (by decide)
  | case2 l u hu hle ih =>
    intro h
    rw [split, dif_neg hu, dif_pos hle]
    intro s hs
    rcases List.mem_cons.mp hs with h1 | h1
    · subst h1
      constructor
      · intro hnil
        have := congrArg List.length hnil
        simp only [List.length_take, List.length_nil] at this
        omega
      · simp [List.length_take]
    · exact ih h s h1
  | case3 l u hu hle hemp =>
    intro h
    rw [split, dif_neg hu, dif_neg hle, if_pos hemp]
    intro s hs; simp at hs
  | case4 l u hu hle hemp =>
    intro h
    rw [split, dif_neg hu, dif_neg hle, if_neg hemp]
    intro s hs
    rcases List.mem_cons.mp hs with h1 | h1
    · subst h1
      refine ⟨by simpa using hemp, by omega⟩
    · simp at h1

theorem split_front_length {α : Type} (input : List α) (unit : Nat)
    (h : 1 ≤ unit) :
    ∀ i, i + 1 < (split input unit).length →
      ((split input unit).getD i []).length = unit := by
  revert h
  induction input, unit using split.induct with
  | case1 l => intro h; exact absurd h (by decide)
  | case2 l u hu hle ih =>
    intro h
    rw [split, dif_neg hu, dif_pos hle]
    intro i hi
    cases i with
    | zero =>
      simp only [List.getD_cons_zero, List.length_take]
      omega
    | succ j =>
      simp only [List.length_cons] at hi
      simpa using ih h j (by omega)
  | case3 l u hu hle hemp =>
    intro h
    rw [split, dif_neg hu, dif_neg hle, if_pos hemp]
    intro i hi; simp at hi
  | case4 l u hu hle hemp =>
    intro h
    rw [split, dif_neg hu, dif_neg hle, if_neg hemp]
    intro i hi
    simp only [List.length_cons, List.length_nil] at hi
    omega

/-- C9: for a non-empty vector and `unit ≥ 1`, `split` returns non-empty
slices whose concatenation is the input, each slice has length at most
`unit`, and every slice except possibly the last has length exactly `unit`. -/
theorem split_spec {α : Type} (input : List α) (unit : Nat)
    (hne : input ≠ []) (h : 1 ≤ unit) :
    (split input unit).flatten = input ∧
    (∀ s ∈ split input unit, s ≠ [] ∧ s.length ≤ unit) ∧
    (∀ i, i + 1 < (split input unit).length →
      ((split input unit).getD i []).length = unit) :=
  ⟨split_flatten input unit h, split_mem_length input unit h,
   split_front_length input unit h⟩

theorem split_spec_witness :
    ([1, 2, 3, 4, 5] : List Nat) ≠ [] ∧ 1 ≤ 2 ∧
    ((split [1, 2, 3, 4, 5] 2).flatten = [1, 2, 3, 4, 5] ∧
     (∀ s ∈ split ([1, 2, 3, 4, 5] : List Nat) 2, s ≠ [] ∧ s.length ≤ 2) ∧
     (∀ i, i + 1 < (split ([1, 2, 3, 4, 5] : List Nat) 2).length →
       ((split ([1, 2, 3, 4, 5] : List Nat) 2).getD i []).length = 2)) :=
  ⟨by decide, by decide, split_spec [1, 2, 3, 4, 5] 2 (by decide) (by decide)⟩

/-! ### Output chunk layout: `set_osec_offsets` and `clear_padding` -/

/-- ELF section type `SHT_NOBITS` (standard ELF constant, from the headers
outside the given sources). -/
def SHT_NOBITS : Nat := 8

/-- ELF section flag `SHF_ALLOC` (standard ELF constant). -/
def SHF_ALLOC : Nat := 2

/-- ELF section flag `SHF_TLS` (standard ELF constant). -/
def SHF_TLS : Nat := 1024

/-- The fields of an `OutputChunk` read or written by `set_osec_offsets`,
`clear_padding` and the layout invariants: its section header plus the
`new_page` / `new_page_end` hints. -/
structure OutputChunkM where
  sh_addralign : Nat := 1
  sh_size : Nat := 0
  sh_type : Nat := 1
  sh_flags : Nat := 0
  new_page : Bool := false
  new_page_end : Bool := false
  sh_offset : Nat := 0
  sh_addr : Nat := 0
deriving DecidableEq, Repr

/-- One iteration of the loop body of `set_osec_offsets` (passes.cc:778):
given the current file offset and virtual address, returns the updated chunk
and the next file offset and virtual address. -/
def osec_step (fileoff vaddr : Nat) (c : OutputChunkM) :
    OutputChunkM × Nat × Nat :=
  let v1 := if c.new_page then align_to vaddr PAGE_SIZE else vaddr
  let v2 := align_to v1 c.sh_addralign
  let f1 := align_with_skew fileoff PAGE_SIZE (v2 % PAGE_SIZE)
  let c' := { c with sh_offset := f1,
                     sh_addr := if c.sh_flags &&& SHF_ALLOC ≠ 0 then v2
                                else c.sh_addr }
  let f2 := if c.sh_type = SHT_NOBITS then f1 else f1 + c.sh_size
  let v3 := if c.sh_type = SHT_NOBITS ∧ c.sh_flags &&& SHF_TLS ≠ 0 then v2
            else v2 + c.sh_size
  let v4 := if c.new_page_end then align_to v3 PAGE_SIZE else v3
  (c', f2, v4)

/-- The loop of `set_osec_offsets` over the chunk list, threading the file
offset and virtual address; returns the updated chunks and the final file
offset (the value the function returns as the file size). -/
def osec_go (fileoff vaddr : Nat) : List OutputChunkM → List OutputChunkM × Nat
  | [] => ([], fileoff)
  | c :: cs =>
    let s := osec_step fileoff vaddr c
    let r := osec_go s.2.1 s.2.2 cs
    (s.1 :: r.1, r.2)

/-- Embedding of `set_osec_offsets` (passes.cc:772): `fileoff` starts at 0 and
`vaddr` at `ctx.arg.image_base`. -/
def set_osec_offsets (image_base : Nat) (chunks : List OutputChunkM) :
    List OutputChunkM × Nat :=
  osec_go 0 image_base chunks

theorem osec_step_offset (fileoff vaddr : Nat) (c : OutputChunkM) :
    (osec_step fileoff vaddr c).1.sh_offset =
      align_with_skew fileoff PAGE_SIZE
        (align_to (if c.new_page then align_to vaddr PAGE_SIZE else vaddr)
          c.sh_addralign % PAGE_SIZE) := rfl

theorem pos_PAGE_SIZE : 0 < PAGE_SIZE := by decide

/-- After the two alignment steps of the loop body, the chunk's file offset is
congruent to the aligned virtual address modulo the page size. -/
theorem osec_step_offset_mod_page (fileoff vaddr : Nat) (c : OutputChunkM) :
    (osec_step fileoff vaddr c).1.sh_offset % PAGE_SIZE =
      align_to (if c.new_page then align_to vaddr PAGE_SIZE else vaddr)
        c.sh_addralign % PAGE_SIZE := by
  rw [osec_step_offset]
  exact align_with_skew_mod _ _ _ pos_PAGE_SIZE
    (Nat.mod_lt _ pos_PAGE_SIZE)

theorem osec_go_aligned (chunks : List OutputChunkM) :
    ∀ fileoff vaddr,
    (∀ c ∈ chunks, 0 < c.sh_addralign ∧ c.sh_addralign ∣ PAGE_SIZE) →
    ∀ c ∈ (osec_go fileoff vaddr chunks).1,
      c.sh_offset % c.sh_addralign = 0 ∧
      (c.sh_flags &&& SHF_ALLOC ≠ 0 →
        c.sh_addr % c.sh_addralign = 0 ∧
        c.sh_offset % PAGE_SIZE = c.sh_addr % PAGE_SIZE) := by
  induction chunks with
  | nil => intro fileoff vaddr _ c hc; simp [osec_go] at hc
  | cons c0 cs ih =>
    intro fileoff vaddr hal c hc
    obtain ⟨hpos, hdvd⟩ := hal c0 (List.mem_cons_self _ _)
    rcases List.mem_cons.mp hc with h1 | h1
    · subst h1
      set v2 := align_to
        (if c0.new_page then align_to vaddr PAGE_SIZE else vaddr)
        c0.sh_addralign with hv2
      have hmodp : (osec_step fileoff vaddr c0).1.sh_offset % PAGE_SIZE =
          v2 % PAGE_SIZE := osec_step_offset_mod_page fileoff vaddr c0
      have hv2a : v2 % c0.sh_addralign = 0 := align_to_mod _ _ hpos
      have halign : (osec_step fileoff vaddr c0).1.sh_addralign =
          c0.sh_addralign := rfl
      have hoff : (osec_step fileoff vaddr c0).1.sh_offset %
          c0.sh_addralign = 0 := by
        have h1 := Nat.mod_mod_of_dvd
          (osec_step fileoff vaddr c0).1.sh_offset hdvd
        have h2 := Nat.mod_mod_of_dvd v2 hdvd
        rw [← h1, hmodp, h2, hv2a]
      refine ⟨by rw [halign]; exact hoff, ?_⟩
      intro hallo
      have haddr : (osec_step fileoff vaddr c0).1.sh_addr = v2 := by
        have hallo2 : c0.sh_flags &&& SHF_ALLOC ≠ 0 := hallo
        simp only [osec_step, hv2]
        rw [if_pos hallo2]
      refine ⟨?_, ?_⟩
      · rw [halign, haddr]; exact hv2a
      · rw [haddr, hmodp]
    · exact ih _ _ (fun d hd => hal d (List.mem_cons_of_mem _ hd)) c h1

/-- C1 (amended): after `set_osec_offsets`, if every chunk's `sh_addralign`
is a positive power of two that divides `PAGE_SIZE`, then every chunk has
`sh_offset % sh_addralign = 0`, and every `SHF_ALLOC` chunk additionally has
`sh_addr % sh_addralign = 0` and `sh_offset ≡ sh_addr (mod PAGE_SIZE)`. -/
theorem set_osec_offsets_alignment (image_base : Nat)
    (chunks : List OutputChunkM)
    (hal : ∀ c ∈ chunks, 0 < c.sh_addralign ∧ (∃ k, c.sh_addralign = 2 ^ k) ∧
      c.sh_addralign ∣ PAGE_SIZE) :
    ∀ c ∈ (set_osec_offsets image_base chunks).1,
      c.sh_offset % c.sh_addralign = 0 ∧
      (c.sh_flags &&& SHF_ALLOC ≠ 0 →
        c.sh_addr % c.sh_addralign = 0 ∧
        c.sh_offset % PAGE_SIZE = c.sh_addr % PAGE_SIZE) :=
  osec_go_aligned chunks 0 image_base
    (fun c hc => ⟨(hal c hc).1, (hal c hc).2.2⟩)

/-- Witness chunks: one allocated chunk aligned to 16 after a 100-byte
unaligned-size chunk. -/
def wChunkA : OutputChunkM :=
  { sh_addralign := 1, sh_size := 100, sh_type := 1, sh_flags := 2 }

/-- Witness chunk with 16-byte alignment. -/
def wChunkB : OutputChunkM :=
  { sh_addralign := 16, sh_size := 32, sh_type := 1, sh_flags := 2 }

theorem set_osec_offsets_alignment_witness :
    (∀ c ∈ [wChunkA, wChunkB], 0 < c.sh_addralign ∧
      (∃ k, c.sh_addralign = 2 ^ k) ∧ c.sh_addralign ∣ PAGE_SIZE) ∧
    (∀ c ∈ (set_osec_offsets 4194304 [wChunkA, wChunkB]).1,
      c.sh_offset % c.sh_addralign = 0 ∧
      (c.sh_flags &&& SHF_ALLOC ≠ 0 →
        c.sh_addr % c.sh_addralign = 0 ∧
        c.sh_offset % PAGE_SIZE = c.sh_addr % PAGE_SIZE)) := by
  have hhyp : ∀ c ∈ [wChunkA, wChunkB], 0 < c.sh_addralign ∧
      (∃ k, c.sh_addralign = 2 ^ k) ∧ c.sh_addralign ∣ PAGE_SIZE := by
    intro c hc
    fin_cases hc
    · exact ⟨by decide, ⟨0, rfl⟩, by decide⟩
    · exact ⟨by decide, ⟨4, rfl⟩, by decide⟩
  exact ⟨hhyp, set_osec_offsets_alignment 4194304 [wChunkA, wChunkB] hhyp⟩

/-- Counterexample chunk: one page of data with trivial alignment. -/
def xChunkA : OutputChunkM :=
  { sh_addralign := 1, sh_size := 4096, sh_type := 1, sh_flags := 2 }

/-- Counterexample chunk: alignment 8192, larger than the page size. -/
def xChunkB : OutputChunkM :=
  { sh_addralign := 8192, sh_size := 0, sh_type := 1, sh_flags := 2 }

/-- C1 counterexample: with alignments that are positive powers of two but
exceed `PAGE_SIZE` (here 8192), `set_osec_offsets` produces a chunk whose
`sh_offset` is not a multiple of its `sh_addralign`: after a 4096-byte chunk
at offset 0, the 8192-aligned chunk lands at file offset 4096. -/
theorem set_osec_offsets_alignment_cex :
    (∀ c ∈ [xChunkA, xChunkB], 0 < c.sh_addralign ∧
      (∃ k, c.sh_addralign = 2 ^ k)) ∧
    ¬ (∀ c ∈ (set_osec_offsets 4194304 [xChunkA, xChunkB]).1,
        c.sh_offset % c.sh_addralign = 0) := by
  constructor
  · intro c hc
    fin_cases hc
    · exact ⟨by decide, ⟨0, rfl⟩⟩
    · exact ⟨by decide, ⟨13, rfl⟩⟩
  · decide

/-- The virtual address after the `new_page` and `sh_addralign` alignment
steps of the loop body. -/
def osec_v2 (vaddr : Nat) (c : OutputChunkM) : Nat :=
  align_to (if c.new_page then align_to vaddr PAGE_SIZE else vaddr)
    c.sh_addralign

/-- The virtual address after advancing past the chunk (`vaddr += sh_size`
unless the chunk is TBSS). -/
def osec_v3 (vaddr : Nat) (c : OutputChunkM) : Nat :=
  if c.sh_type = SHT_NOBITS ∧ c.sh_flags &&& SHF_TLS ≠ 0 then osec_v2 vaddr c
  else osec_v2 vaddr c + c.sh_size

/-- The virtual address handed to the next iteration (after the optional
`new_page_end` alignment). -/
def osec_v4 (vaddr : Nat) (c : OutputChunkM) : Nat :=
  if c.new_page_end then align_to (osec_v3 vaddr c) PAGE_SIZE
  else osec_v3 vaddr c

/-- The file offset assigned to the chunk. -/
def osec_f1 (fileoff vaddr : Nat) (c : OutputChunkM) : Nat :=
  align_with_skew fileoff PAGE_SIZE (osec_v2 vaddr c % PAGE_SIZE)

/-- The file offset handed to the next iteration (`fileoff += sh_size` unless
`SHT_NOBITS`). -/
def osec_f2 (fileoff vaddr : Nat) (c : OutputChunkM) : Nat :=
  if c.sh_type = SHT_NOBITS then osec_f1 fileoff vaddr c
  else osec_f1 fileoff vaddr c + c.sh_size

theorem osec_step_eq (fileoff vaddr : Nat) (c : OutputChunkM) :
    osec_step fileoff vaddr c =
      ({ c with sh_offset := osec_f1 fileoff vaddr c,
                sh_addr := if c.sh_flags &&& SHF_ALLOC ≠ 0 then osec_v2 vaddr c
                           else c.sh_addr },
       osec_f2 fileoff vaddr c, osec_v4 vaddr c) := rfl

theorem osec_v2_ge (vaddr : Nat) (c : OutputChunkM) :
    vaddr ≤ osec_v2 vaddr c := by
  unfold osec_v2
  split
  · exact le_trans (align_to_ge vaddr PAGE_SIZE) (align_to_ge _ _)
  · exact align_to_ge _ _

theorem osec_v3_ge (vaddr : Nat) (c : OutputChunkM) :
    osec_v2 vaddr c ≤ osec_v3 vaddr c := by
  unfold osec_v3
  split
  · exact Nat.le_refl _
  · exact Nat.le_add_right _ _

theorem osec_v4_ge (vaddr : Nat) (c : OutputChunkM) :
    osec_v3 vaddr c ≤ osec_v4 vaddr c := by
  unfold osec_v4
  split
  · exact align_to_ge _ _
  · exact Nat.le_refl _

theorem osec_v4_ge_vaddr (vaddr : Nat) (c : OutputChunkM) :
    vaddr ≤ osec_v4 vaddr c :=
  le_trans (osec_v2_ge vaddr c) (le_trans (osec_v3_ge vaddr c)
    (osec_v4_ge vaddr c))

theorem osec_v4_ge_data (vaddr : Nat) (c : OutputChunkM)
    (h : ¬ (c.sh_type = SHT_NOBITS ∧ c.sh_flags &&& SHF_TLS ≠ 0)) :
    osec_v2 vaddr c + c.sh_size ≤ osec_v4 vaddr c := by
  have h3 : osec_v3 vaddr c = osec_v2 vaddr c + c.sh_size := by
    unfold osec_v3
    rw [if_neg h]
  rw [← h3]
  exact osec_v4_ge vaddr c

theorem osec_f1_ge (fileoff vaddr : Nat) (c : OutputChunkM) :
    fileoff ≤ osec_f1 fileoff vaddr c :=
  align_with_skew_ge _ _ _ pos_PAGE_SIZE (Nat.mod_lt _ pos_PAGE_SIZE)

theorem osec_f2_ge (fileoff vaddr : Nat) (c : OutputChunkM) :
    fileoff ≤ osec_f2 fileoff vaddr c := by
  unfold osec_f2
  split
  · exact osec_f1_ge fileoff vaddr c
  · exact le_trans (osec_f1_ge fileoff vaddr c) (Nat.le_add_right _ _)

theorem osec_step_v4_proj (fileoff vaddr : Nat) (c : OutputChunkM) :
    (osec_step fileoff vaddr c).2.2 = osec_v4 vaddr c := by
  rw [osec_step_eq]

theorem osec_go_addr_ge (chunks : List OutputChunkM) :
    ∀ fileoff vaddr, ∀ c ∈ (osec_go fileoff vaddr chunks).1,
      c.sh_flags &&& SHF_ALLOC ≠ 0 → vaddr ≤ c.sh_addr := by
  induction chunks with
  | nil => intro fileoff vaddr c hc; simp [osec_go] at hc
  | cons c0 cs ih =>
    intro fileoff vaddr c hc hallo
    rcases List.mem_cons.mp hc with h1 | h1
    · subst h1
      rw [osec_step_eq] at hallo ⊢
      simp only at hallo ⊢
      rw [if_pos hallo]
      exact osec_v2_ge vaddr c0
    · exact le_trans (osec_v4_ge_vaddr vaddr c0)
        (ih _ _ c h1 hallo)

theorem osec_go_no_overlap (chunks : List OutputChunkM) :
    ∀ fileoff vaddr,
    List.Pairwise (fun x y =>
      x.sh_flags &&& SHF_ALLOC ≠ 0 → y.sh_flags &&& SHF_ALLOC ≠ 0 →
      ¬ (x.sh_type = SHT_NOBITS ∧ x.sh_flags &&& SHF_TLS ≠ 0) →
      x.sh_addr + x.sh_size ≤ y.sh_addr)
      (osec_go fileoff vaddr chunks).1 := by
  induction chunks with
  | nil => intro fileoff vaddr; simp [osec_go]
  | cons c0 cs ih =>
    intro fileoff vaddr
    rw [osec_go, List.pairwise_cons]
    constructor
    · intro y hy hax hay hntb
      rw [osec_step_eq] at hax hntb ⊢
      simp only at hax hntb ⊢
      rw [if_pos hax]
      have h1 := osec_go_addr_ge cs _ _ y hy hay
      rw [osec_step_v4_proj] at h1
      have h2 := osec_v4_ge_data vaddr c0 hntb
      omega
    · exact ih _ _

/-- C2 (amended): after `set_osec_offsets`, for any allocated chunk X
preceding an allocated chunk Y, provided X is not a TBSS chunk (thread-local
`SHT_NOBITS`), `X.sh_addr + X.sh_size ≤ Y.sh_addr`. -/
theorem set_osec_offsets_no_overlap (image_base : Nat)
    (chunks : List OutputChunkM) :
    List.Pairwise (fun x y =>
      x.sh_flags &&& SHF_ALLOC ≠ 0 → y.sh_flags &&& SHF_ALLOC ≠ 0 →
      ¬ (x.sh_type = SHT_NOBITS ∧ x.sh_flags &&& SHF_TLS ≠ 0) →
      x.sh_addr + x.sh_size ≤ y.sh_addr)
      (set_osec_offsets image_base chunks).1 :=
  osec_go_no_overlap chunks 0 image_base

/-- TBSS counterexample chunk: allocated, thread-local, `SHT_NOBITS`,
16 bytes. -/
def tChunkA : OutputChunkM :=
  { sh_addralign := 1, sh_size := 16, sh_type := 8, sh_flags := 1026 }

/-- Allocated chunk following the TBSS chunk. -/
def tChunkB : OutputChunkM :=
  { sh_addralign := 1, sh_size := 0, sh_type := 1, sh_flags := 2 }

/-- C2 counterexample: a TBSS chunk does not advance `vaddr`, so the next
allocated chunk starts at the same address and
`X.sh_addr + X.sh_size ≤ Y.sh_addr` fails for the pair. -/
theorem set_osec_offsets_no_overlap_cex :
    ¬ List.Pairwise (fun x y : OutputChunkM =>
        x.sh_flags &&& SHF_ALLOC ≠ 0 → y.sh_flags &&& SHF_ALLOC ≠ 0 →
        x.sh_addr + x.sh_size ≤ y.sh_addr)
      (set_osec_offsets 4194304 [tChunkA, tChunkB]).1 := by decide

/-- Embedding of the gap-start computation of `clear_padding`
(passes.cc:708): the position after a chunk's file data (`sh_offset`, plus
`sh_size` unless `SHT_NOBITS`). -/
def data_end (c : OutputChunkM) : Nat :=
  c.sh_offset + (if c.sh_type = SHT_NOBITS then 0 else c.sh_size)

/-- Embedding of `clear_padding` (passes.cc:705): the list of
`(start, stop)` byte ranges that are zeroed with `memset`: one range from
each chunk's data end to the next chunk's `sh_offset`, and a final range from
the last chunk's data end to `filesize`. -/
def clear_padding : List OutputChunkM → Nat → List (Nat × Nat)
  | [], _ => []
  | [c], filesize => [(data_end c, filesize)]
  | c :: c2 :: cs, filesize =>
    (data_end c, c2.sh_offset) :: clear_padding (c2 :: cs) filesize

theorem osec_step_data_end (fileoff vaddr : Nat) (c : OutputChunkM) :
    data_end (osec_step fileoff vaddr c).1 = osec_f2 fileoff vaddr c := by
  rw [osec_step_eq]
  unfold data_end osec_f2
  simp only
  split
  · omega
  · rfl

theorem osec_go_final_ge (chunks : List OutputChunkM) :
    ∀ fileoff vaddr, fileoff ≤ (osec_go fileoff vaddr chunks).2 := by
  induction chunks with
  | nil => intro fileoff vaddr; exact Nat.le_refl _
  | cons c0 cs ih =>
    intro fileoff vaddr
    exact le_trans (osec_f2_ge fileoff vaddr c0) (ih _ _)

theorem osec_go_data_end_le (chunks : List OutputChunkM) :
    ∀ fileoff vaddr, ∀ c ∈ (osec_go fileoff vaddr chunks).1,
      data_end c ≤ (osec_go fileoff vaddr chunks).2 := by
  induction chunks with
  | nil => intro fileoff vaddr c hc; simp [osec_go] at hc
  | cons c0 cs ih =>
    intro fileoff vaddr c hc
    rcases List.mem_cons.mp hc with h1 | h1
    · subst h1
      rw [osec_step_data_end]
      exact osec_go_final_ge cs _ _
    · exact ih _ _ c h1

theorem osec_step_sh_offset (fileoff vaddr : Nat) (c : OutputChunkM) :
    (osec_step fileoff vaddr c).1.sh_offset = osec_f1 fileoff vaddr c := by
  rw [osec_step_eq]

theorem data_end_ge_offset (c : OutputChunkM) : c.sh_offset ≤ data_end c :=
  Nat.le_add_right _ _

theorem osec_step_f2_proj (fileoff vaddr : Nat) (c : OutputChunkM) :
    (osec_step fileoff vaddr c).2.1 = osec_f2 fileoff vaddr c := by
  rw [osec_step_eq]

theorem osec_go_cons_fst (fileoff vaddr : Nat) (c : OutputChunkM)
    (cs : List OutputChunkM) :
    (osec_go fileoff vaddr (c :: cs)).1 =
      (osec_step fileoff vaddr c).1 ::
        (osec_go (osec_step fileoff vaddr c).2.1
          (osec_step fileoff vaddr c).2.2 cs).1 := rfl

theorem osec_go_cons_snd (fileoff vaddr : Nat) (c : OutputChunkM)
    (cs : List OutputChunkM) :
    (osec_go fileoff vaddr (c :: cs)).2 =
      (osec_go (osec_step fileoff vaddr c).2.1
        (osec_step fileoff vaddr c).2.2 cs).2 := rfl

theorem osec_go_nil_snd (fileoff vaddr : Nat) :
    (osec_go fileoff vaddr []).2 = fileoff := rfl

theorem clear_padding_go (chunks : List OutputChunkM) :
    ∀ fileoff vaddr,
    ∀ p ∈ clear_padding (osec_go fileoff vaddr chunks).1
        (osec_go fileoff vaddr chunks).2,
      p.1 ≤ p.2 ∧ p.2 ≤ (osec_go fileoff vaddr chunks).2 := by
  induction chunks with
  | nil => intro fileoff vaddr p hp; simp [osec_go, clear_padding] at hp
  | cons c0 cs ih =>
    intro fileoff vaddr p hp
    rw [osec_go_cons_fst, osec_go_cons_snd] at hp
    rw [osec_go_cons_snd]
    cases cs with
    | nil =>
      rw [osec_go_nil_snd] at hp ⊢
      rw [show (osec_go (osec_step fileoff vaddr c0).2.1
          (osec_step fileoff vaddr c0).2.2 ([] : List OutputChunkM)).1 = []
          from rfl] at hp
      rw [clear_padding, List.mem_singleton] at hp
      subst hp
      dsimp only
      rw [osec_step_data_end, osec_step_f2_proj]
      exact ⟨Nat.le_refl _, Nat.le_refl _⟩
    | cons c1 cs1 =>
      rw [osec_go_cons_fst] at hp
      rw [clear_padding] at hp
      rcases List.mem_cons.mp hp with h1 | h1
      · subst h1
        refine ⟨?_, ?_⟩
        · show data_end (osec_step fileoff vaddr c0).1 ≤
            (osec_step (osec_step fileoff vaddr c0).2.1
              (osec_step fileoff vaddr c0).2.2 c1).1.sh_offset
          rw [osec_step_data_end, osec_step_sh_offset, osec_step_f2_proj]
          exact osec_f1_ge _ _ _
        · show (osec_step (osec_step fileoff vaddr c0).2.1
              (osec_step fileoff vaddr c0).2.2 c1).1.sh_offset ≤
            (osec_go (osec_step fileoff vaddr c0).2.1
              (osec_step fileoff vaddr c0).2.2 (c1 :: cs1)).2
          have hmem : (osec_step (osec_step fileoff vaddr c0).2.1
              (osec_step fileoff vaddr c0).2.2 c1).1 ∈
              (osec_go (osec_step fileoff vaddr c0).2.1
                (osec_step fileoff vaddr c0).2.2 (c1 :: cs1)).1 := by
            rw [osec_go_cons_fst]
            exact List.mem_cons_self _ _
          exact le_trans (data_end_ge_offset _)
            (osec_go_data_end_le (c1 :: cs1) _ _ _ hmem)
      · refine ih (osec_step fileoff vaddr c0).2.1
          (osec_step fileoff vaddr c0).2.2 p ?_
        rw [osec_go_cons_fst]
        exact h1

/-- C10: with `filesize` the value returned by `set_osec_offsets` on the same
chunks, every range zeroed by `clear_padding` is well formed and inside the
output buffer: each range's start is at most its stop (the next chunk's
`sh_offset`, resp. `filesize`), and each stop is at most `filesize`; hence no
`memset` of `clear_padding` writes outside the buffer of size `filesize`. -/
theorem clear_padding_in_bounds (image_base : Nat)
    (chunks : List OutputChunkM) :
    ∀ p ∈ clear_padding (set_osec_offsets image_base chunks).1
        (set_osec_offsets image_base chunks).2,
      p.1 ≤ p.2 ∧ p.2 ≤ (set_osec_offsets image_base chunks).2 :=
  clear_padding_go chunks 0 image_base

theorem clear_padding_in_bounds_witness :
    ((100 : Nat), (100 : Nat)) ∈
      clear_padding (set_osec_offsets 4194304 [wChunkA]).1
        (set_osec_offsets 4194304 [wChunkA]).2 ∧
    ((100 : Nat) ≤ 100 ∧ 100 ≤ (set_osec_offsets 4194304 [wChunkA]).2) :=
  ⟨by decide,
   clear_padding_in_bounds 4194304 [wChunkA] (100, 100) (by decide)⟩

/-! ### File priorities: `set_file_priority` -/

/-- The fields of an `ObjectFile` used by `set_file_priority`. -/
structure PObj where
  is_in_lib : Bool
  priority : Nat := 0
deriving DecidableEq, Repr

/-- The fields of a `SharedFile` used by `set_file_priority`. -/
structure PDso where
  priority : Nat := 0
deriving DecidableEq, Repr

/-- One of the two object loops of `set_file_priority` (passes.cc:72-77):
walks the objects in order and gives each object with `is_in_lib = want` the
next priority; returns the updated list and the next free priority. -/
def assign_objs (want : Bool) : List PObj → Nat → List PObj × Nat
  | [], prio => ([], prio)
  | f :: fs, prio =>
    if f.is_in_lib = want then
      ({ f with priority := prio } :: (assign_objs want fs (prio + 1)).1,
       (assign_objs want fs (prio + 1)).2)
    else
      (f :: (assign_objs want fs prio).1, (assign_objs want fs prio).2)

/-- The DSO loop of `set_file_priority` (passes.cc:78-79). -/
def assign_dsos : List PDso → Nat → List PDso × Nat
  | [], prio => ([], prio)
  | d :: ds, prio =>
    ({ d with priority := prio } :: (assign_dsos ds (prio + 1)).1,
     (assign_dsos ds (prio + 1)).2)

/-- Embedding of `set_file_priority` (passes.cc:68): priority 1 is reserved
for the internal file; the counter starts at 2 and runs over non-lib objects
in order, then lib objects in order, then DSOs in order. -/
def set_file_priority (objs : List PObj) (dsos : List PDso) :
    List PObj × List PDso :=
  ((assign_objs true (assign_objs false objs 2).1
      (assign_objs false objs 2).2).1,
   (assign_dsos dsos
      (assign_objs true (assign_objs false objs 2).1
        (assign_objs false objs 2).2).2).1)

theorem assign_objs_snd (want : Bool) :
    ∀ (fs : List PObj) (prio : Nat),
    (assign_objs want fs prio).2 =
      prio + fs.countP (fun f => f.is_in_lib == want) := by
  intro fs
  induction fs with
  | nil => intro prio; simp [assign_objs]
  | cons f fs ih =>
    intro prio
    by_cases h : f.is_in_lib = want
    · rw [assign_objs, if_pos h, List.countP_cons_of_pos _ _ (by simp [h])]
      dsimp only
      rw [ih]
      omega
    · rw [assign_objs, if_neg h, List.countP_cons_of_neg _ _ (by simp [h])]
      exact ih prio

theorem assign_objs_filter_map (want : Bool) :
    ∀ (fs : List PObj) (prio : Nat),
    ((assign_objs want fs prio).1.filter
        (fun f => f.is_in_lib == want)).map (fun f => f.priority) =
      List.range' prio (fs.countP (fun f => f.is_in_lib == want)) := by
  intro fs
  induction fs with
  | nil => intro prio; simp [assign_objs]
  | cons f fs ih =>
    intro prio
    by_cases h : f.is_in_lib = want
    · rw [assign_objs, if_pos h, List.countP_cons_of_pos _ _ (by simp [h])]
      dsimp only
      rw [List.filter_cons_of_pos (by simp [h]), List.map_cons, ih,
        List.range'_succ]
    · rw [assign_objs, if_neg h, List.countP_cons_of_neg _ _ (by simp [h])]
      dsimp only
      rw [List.filter_cons_of_neg (by simp [h]), ih]

theorem assign_objs_filter_other (want other : Bool) (hne : other ≠ want) :
    ∀ (fs : List PObj) (prio : Nat),
    (assign_objs want fs prio).1.filter (fun f => f.is_in_lib == other) =
      fs.filter (fun f => f.is_in_lib == other) := by
  intro fs
  induction fs with
  | nil => intro prio; simp [assign_objs]
  | cons f fs ih =>
    intro prio
    by_cases h : f.is_in_lib = want
    · rw [assign_objs, if_pos h]
      dsimp only
      rw [List.filter_cons_of_neg (by
          simp only [h, beq_iff_eq]
          exact fun hc => hne hc.symm),
        List.filter_cons_of_neg (by
          simp only [h, beq_iff_eq]
          exact fun hc => hne hc.symm), ih]
    · rw [assign_objs, if_neg h]
      dsimp only
      by_cases h2 : f.is_in_lib = other
      · rw [List.filter_cons_of_pos (by simp [h2]),
          List.filter_cons_of_pos (by simp [h2]), ih]
      · rw [List.filter_cons_of_neg (by simp [h2]),
          List.filter_cons_of_neg (by simp [h2]), ih]

theorem assign_objs_map_lib (want : Bool) :
    ∀ (fs : List PObj) (prio : Nat),
    (assign_objs want fs prio).1.map (fun f => f.is_in_lib) =
      fs.map (fun f => f.is_in_lib) := by
  intro fs
  induction fs with
  | nil => intro prio; simp [assign_objs]
  | cons f fs ih =>
    intro prio
    by_cases h : f.is_in_lib = want
    · rw [assign_objs, if_pos h]
      dsimp only
      rw [List.map_cons, List.map_cons, ih]
    · rw [assign_objs, if_neg h]
      dsimp only
      rw [List.map_cons, List.map_cons, ih]

theorem assign_dsos_snd :
    ∀ (ds : List PDso) (prio : Nat),
    (assign_dsos ds prio).2 = prio + ds.length := by
  intro ds
  induction ds with
  | nil => intro prio; simp [assign_dsos]
  | cons d ds ih =>
    intro prio
    rw [assign_dsos]
    dsimp only
    rw [ih, List.length_cons]
    omega

theorem assign_dsos_map :
    ∀ (ds : List PDso) (prio : Nat),
    (assign_dsos ds prio).1.map (fun d => d.priority) =
      List.range' prio ds.length := by
  intro ds
  induction ds with
  | nil => intro prio; simp [assign_dsos]
  | cons d ds ih =>
    intro prio
    rw [assign_dsos]
    dsimp only
    rw [List.map_cons, ih, List.length_cons, List.range'_succ]

theorem countP_lib_of_map_eq {l1 l2 : List PObj}
    (h : l1.map (fun f => f.is_in_lib) = l2.map (fun f => f.is_in_lib))
    (b : Bool) :
    l1.countP (fun f => f.is_in_lib == b) =
      l2.countP (fun f => f.is_in_lib == b) := by
  have h1 := List.countP_map (fun x => x == b) (fun f : PObj => f.is_in_lib) l1
  have h2 := List.countP_map (fun x => x == b) (fun f : PObj => f.is_in_lib) l2
  rw [h] at h1
  rw [h1] at h2
  exact h2

theorem countP_lib_total (l : List PObj) :
    l.countP (fun f => f.is_in_lib == false) +
      l.countP (fun f => f.is_in_lib == true) = l.length := by
  induction l with
  | nil => simp
  | cons f fs ih =>
    cases hf : f.is_in_lib
    · rw [List.countP_cons_of_pos _ _ (by simp [hf]),
        List.countP_cons_of_neg _ _ (by simp [hf]), List.length_cons]
      omega
    · rw [List.countP_cons_of_neg _ _ (by simp [hf]),
        List.countP_cons_of_pos _ _ (by simp [hf]), List.length_cons]
      omega

/-- C5: `set_file_priority` hands out the consecutive priorities
2, 3, … (1 being reserved for the internal file): the non-lib objects, in
input order, get `2 … 1 + #nonlib`; the lib objects, in input order, get the
following block; the DSOs, in input order, get the block starting at
`2 + #objs`; and each object keeps its position and `is_in_lib` flag. All
claimed order and distinctness properties read off from the `range'`
equations. -/
theorem set_file_priority_spec (objs : List PObj) (dsos : List PDso) :
    (((set_file_priority objs dsos).1.filter
        (fun f => f.is_in_lib == false)).map (fun f => f.priority) =
      List.range' 2 (objs.countP (fun f => f.is_in_lib == false))) ∧
    (((set_file_priority objs dsos).1.filter
        (fun f => f.is_in_lib == true)).map (fun f => f.priority) =
      List.range' (2 + objs.countP (fun f => f.is_in_lib == false))
        (objs.countP (fun f => f.is_in_lib == true))) ∧
    ((set_file_priority objs dsos).2.map (fun d => d.priority) =
      List.range' (2 + objs.length) dsos.length) ∧
    ((set_file_priority objs dsos).1.map (fun f => f.is_in_lib) =
      objs.map (fun f => f.is_in_lib)) ∧
    ((((set_file_priority objs dsos).1.filter
          (fun f => f.is_in_lib == false)).map (fun f => f.priority) ++
      ((set_file_priority objs dsos).1.filter
          (fun f => f.is_in_lib == true)).map (fun f => f.priority) ++
      (set_file_priority objs dsos).2.map (fun d => d.priority)) =
      List.range' 2 (objs.length + dsos.length)) := by
  unfold set_file_priority
  dsimp only
  have hmap1 := assign_objs_map_lib false objs 2
  have hmap2 := assign_objs_map_lib true (assign_objs false objs 2).1
    (assign_objs false objs 2).2
  have hcount1 : (assign_objs false objs 2).1.countP
      (fun f => f.is_in_lib == true) =
      objs.countP (fun f => f.is_in_lib == true) :=
    countP_lib_of_map_eq hmap1 true
  have hsnd1 := assign_objs_snd false objs 2
  have hsnd2 := assign_objs_snd true (assign_objs false objs 2).1
    (assign_objs false objs 2).2
  have hfalse : (assign_objs true (assign_objs false objs 2).1
      (assign_objs false objs 2).2).1.filter
        (fun f => f.is_in_lib == false) =
      (assign_objs false objs 2).1.filter (fun f => f.is_in_lib == false) :=
    assign_objs_filter_other true false (by decide) _ _
  have h1 : ((assign_objs true (assign_objs false objs 2).1
      (assign_objs false objs 2).2).1.filter
        (fun f => f.is_in_lib == false)).map (fun f => f.priority) =
      List.range' 2 (objs.countP (fun f => f.is_in_lib == false)) := by
    rw [hfalse]
    exact assign_objs_filter_map false objs 2
  have h2 : ((assign_objs true (assign_objs false objs 2).1
      (assign_objs false objs 2).2).1.filter
        (fun f => f.is_in_lib == true)).map (fun f => f.priority) =
      List.range' (2 + objs.countP (fun f => f.is_in_lib == false))
        (objs.countP (fun f => f.is_in_lib == true)) := by
    rw [assign_objs_filter_map true, hcount1, hsnd1]
  have h3 : (assign_dsos dsos
      (assign_objs true (assign_objs false objs 2).1
        (assign_objs false objs 2).2).2).1.map (fun d => d.priority) =
      List.range' (2 + objs.length) dsos.length := by
    rw [assign_dsos_map, hsnd2, hcount1, hsnd1]
    congr 1
    have := countP_lib_total objs
    omega
  have h4 : (assign_objs true (assign_objs false objs 2).1
      (assign_objs false objs 2).2).1.map (fun f => f.is_in_lib) =
      objs.map (fun f => f.is_in_lib) := by
    rw [hmap2, hmap1]
  refine ⟨h1, h2, h3, h4, ?_⟩
  rw [h1, h2, h3]
  have hr1 := List.range'_append 2 (objs.countP (fun f => f.is_in_lib == false))
    (objs.countP (fun f => f.is_in_lib == true)) 1
  simp only [Nat.one_mul] at hr1
  rw [hr1]
  have hr2 := List.range'_append 2 (objs.length) dsos.length 1
  simp only [Nat.one_mul] at hr2
  rw [show objs.countP (fun f => f.is_in_lib == true) +
      objs.countP (fun f => f.is_in_lib == false) = objs.length by
    have := countP_lib_total objs; omega]
  rw [hr2, Nat.add_comm dsos.length objs.length]

/-! ### Section binning: `bin_sections` -/

/-- An input section as seen by `bin_sections`: the index of its output
section (`isec->output_section->idx`) plus an identifying payload. -/
structure ISec where
  out_idx : Nat
  id : Nat := 0
deriving DecidableEq, Repr

/-- An object file as seen by `bin_sections`: its (possibly sparse) vector of
input sections. -/
structure BObj where
  sections : List (Option ISec)
deriving DecidableEq, Repr

/-- Selects a (non-null) input section destined for output section `j`. -/
def isec_to (j : Nat) (os : Option ISec) : Option ISec :=
  match os with
  | none => none
  | some isec => if isec.out_idx = j then some isec else none

/-- The input sections of one object that feed output section `j`, in
section-vector order. -/
def osec_members (j : Nat) (file : BObj) : List ISec :=
  file.sections.filterMap (isec_to j)

/-- The scatter loop of one slice (passes.cc:273-276): each non-null input
section is pushed onto the bucket of its output section's index. -/
def scatter (buckets : List (List ISec)) : List (Option ISec) → List (List ISec)
  | [] => buckets
  | none :: rest => scatter buckets rest
  | some isec :: rest =>
    scatter (buckets.set isec.out_idx
      (buckets.getD isec.out_idx [] ++ [isec])) rest

/-- Builds one slice's per-output-section vectors (`groups[i]`), starting from
`num_osec` empty buckets. -/
def scatter_slice (num_osec : Nat) (sl : List BObj) : List (List ISec) :=
  sl.foldl (fun buckets file => scatter buckets file.sections)
    (List.replicate num_osec [])

/-- Embedding of `bin_sections` (passes.cc:260): partition the objects into
128 slices, build per-slice per-output-section vectors in parallel, and
concatenate each output section's contributions in slice-index order. -/
def bin_sections (objs : List BObj) (num_osec : Nat) : List (List ISec) :=
  (List.range num_osec).map (fun j =>
    (((split objs ((objs.length + 127) / 128)).map
        (scatter_slice num_osec)).map (fun g => g.getD j [])).flatten)

/-- The sequential reference of C3: for each output section, iterate the
objects in vector order and their sections in index order, appending each
non-null input section destined for it. -/
def bin_sections_seq (objs : List BObj) (num_osec : Nat) : List (List ISec) :=
  (List.range num_osec).map (fun j => objs.flatMap (osec_members j))

theorem scatter_length (secs : List (Option ISec)) :
    ∀ buckets, (scatter buckets secs).length = buckets.length := by
  induction secs with
  | nil => intro buckets; rfl
  | cons os rest ih =>
    intro buckets
    cases os with
    | none => exact ih buckets
    | some isec =>
      rw [scatter, ih, List.length_set]

theorem scatter_getD (secs : List (Option ISec)) :
    ∀ buckets j, j < buckets.length →
    (scatter buckets secs).getD j [] =
      buckets.getD j [] ++ secs.filterMap (isec_to j) := by
  induction secs with
  | nil => intro buckets j hj; simp [scatter]
  | cons os rest ih =>
    intro buckets j hj
    cases os with
    | none =>
      rw [scatter, ih buckets j hj]
      rfl
    | some isec =>
      rw [scatter, ih _ j (by rw [List.length_set]; exact hj)]
      by_cases hidx : isec.out_idx = j
      · subst hidx
        rw [List.getD_eq_getElem?_getD, List.getElem?_set_self hj]
        simp [List.filterMap_cons, isec_to, List.append_assoc]
      · rw [List.getD_eq_getElem?_getD, List.getElem?_set_ne hidx,
          ← List.getD_eq_getElem?_getD]
        rw [show List.filterMap (isec_to j) (some isec :: rest) =
          rest.filterMap (isec_to j) by
          rw [List.filterMap_cons]
          simp [isec_to, hidx]]

theorem scatter_foldl_getD (sl : List BObj) :
    ∀ buckets j, j < buckets.length →
    (sl.foldl (fun buckets file => scatter buckets file.sections)
        buckets).getD j [] =
      buckets.getD j [] ++ sl.flatMap (osec_members j) := by
  induction sl with
  | nil => intro buckets j hj; simp
  | cons file sl ih =>
    intro buckets j hj
    rw [List.foldl_cons,
      ih _ j (by rw [scatter_length]; exact hj),
      scatter_getD _ buckets j hj, List.flatMap_cons, List.append_assoc]
    rfl

theorem scatter_slice_getD (num_osec : Nat) (sl : List BObj) (j : Nat)
    (hj : j < num_osec) :
    (scatter_slice num_osec sl).getD j [] = sl.flatMap (osec_members j) := by
  unfold scatter_slice
  rw [scatter_foldl_getD sl _ j (by rw [List.length_replicate]; exact hj)]
  rw [List.getD_eq_getElem?_getD, List.getElem?_replicate]
  simp [hj]

theorem flatten_map_flatMap {α β : Type} (L : List (List α))
    (q : α → List β) :
    (L.map (fun sl => sl.flatMap q)).flatten = L.flatten.flatMap q := by
  induction L with
  | nil => simp
  | cons sl L ih =>
    rw [List.map_cons, List.flatten_cons, ih, List.flatten_cons,
      List.flatMap_append]

/-- C3: the two-level parallel scatter of `bin_sections` (128-way slicing,
per-slice per-output-section vectors, slice-index-ordered append) produces,
for every output section, exactly the member list of the naive sequential
append over objects in vector order and sections in index order. -/
theorem bin_sections_eq_seq (objs : List BObj) (num_osec : Nat) :
    bin_sections objs num_osec = bin_sections_seq objs num_osec := by
  unfold bin_sections bin_sections_seq
  apply List.map_congr_left
  intro j hj
  have hj' : j < num_osec := List.mem_range.mp hj
  rw [List.map_map]
  have hmap : ((split objs ((objs.length + 127) / 128)).map
      ((fun g => g.getD j []) ∘ scatter_slice num_osec)) =
      ((split objs ((objs.length + 127) / 128)).map
        (fun sl => sl.flatMap (osec_members j))) := by
    apply List.map_congr_left
    intro sl _
    exact scatter_slice_getD num_osec sl j hj'
  rw [hmap, flatten_map_flatMap]
  cases hobjs : objs with
  | nil => rw [split, dif_pos (by simp)]; rfl
  | cons o os =>
    rw [split_flatten _ _ (by simp [List.length_cons]; omega)]

/-! ### Duplicate symbol detection: `check_duplicate_symbols` -/

/-- The fields of an `ElfSym` entry read by `check_duplicate_symbols`:
symbol name plus the predicates used to classify it. -/
structure ESym where
  name : Nat
  is_defined : Bool := true
  is_common : Bool := false
  is_weak : Bool := false
  is_abs : Bool := false
  has_section : Bool := true
deriving DecidableEq, Repr

/-- An alive object file as seen by `check_duplicate_symbols`: its id
(standing for the `ObjectFile` pointer) and its global symbol entries
(`elf_syms[first_global..]`). -/
structure DObj where
  id : Nat
  globs : List ESym := []
deriving DecidableEq, Repr

/-- Embedding of `!esym.is_abs() && !esym.is_common() && !file->get_section(esym)`
(passes.cc:302). -/
def is_eliminated (e : ESym) : Bool :=
  !e.is_abs && !e.is_common && !e.has_section

/-- The error emitted (if any) for one global entry of a file
(passes.cc:305-308): the recorded data are the reporting file, the symbol's
resolved owner (`sym.file`, `none` standing for a cleared symbol) and the
symbol. -/
def dup_error_here (owner : Nat → Option Nat) (fid : Nat) (e : ESym) :
    Option (Nat × Option Nat × Nat) :=
  if owner e.name ≠ some fid ∧ e.is_defined = true ∧ e.is_common = false ∧
      e.is_weak = false ∧ is_eliminated e = false
  then some (fid, owner e.name, e.name) else none

/-- Embedding of `check_duplicate_symbols` (passes.cc:293): the list of
duplicate-symbol errors over all alive objects, each scanning its globals. -/
def check_duplicate_symbols (owner : Nat → Option Nat) (objs : List DObj) :
    List (Nat × Option Nat × Nat) :=
  objs.flatMap (fun f => f.globs.filterMap (dup_error_here owner f.id))

/-- The file defines the symbol as a non-weak, non-common, non-eliminated
global ("strong definition"). -/
def strong_def (f : DObj) (s : Nat) : Prop :=
  ∃ e ∈ f.globs, e.name = s ∧ e.is_defined = true ∧ e.is_common = false ∧
    e.is_weak = false ∧ is_eliminated e = false

instance strong_def_dec (f : DObj) (s : Nat) : Decidable (strong_def f s) := by
  unfold strong_def
  infer_instance

/-- The number of errors recorded for the unordered pair of files `{a, b}`
on symbol `s`: an error of the pair names one of them as the reporting file
and the other as the resolved owner. -/
def pair_error_count (errs : List (Nat × Option Nat × Nat)) (a b s : Nat) :
    Nat :=
  errs.count (a, some b, s) + errs.count (b, some a, s)

theorem nodup_map_mem_inj {α β : Type} (g : α → β) :
    ∀ (l : List α), (l.map g).Nodup →
    ∀ {x y}, x ∈ l → y ∈ l → g x = g y → x = y := by
  intro l
  induction l with
  | nil => intro _ x y hx; simp at hx
  | cons a l ih =>
    intro hnd x y hx hy hg
    rw [List.map_cons, List.nodup_cons] at hnd
    rcases List.mem_cons.mp hx with h1 | h1 <;>
      rcases List.mem_cons.mp hy with h2 | h2
    · rw [h1, h2]
    · subst h1
      exact absurd (by rw [hg]; exact List.mem_map_of_mem g h2) hnd.1
    · subst h2
      exact absurd (by rw [← hg]; exact List.mem_map_of_mem g h1) hnd.1
    · exact ih hnd.2 h1 h2 hg

theorem countP_nodup_names (s : Nat) (q : ESym → Bool)
    (hq : ∀ e, q e = true → e.name = s) :
    ∀ (globs : List ESym), (globs.map (fun e => e.name)).Nodup →
    globs.countP q = if ∃ e ∈ globs, q e = true then 1 else 0 := by
  intro globs
  induction globs with
  | nil => intro _; simp
  | cons e rest ih =>
    intro hnd
    rw [List.map_cons, List.nodup_cons] at hnd
    by_cases he : q e = true
    · rw [List.countP_cons_of_pos _ _ he]
      have hz : rest.countP q = 0 := by
        rw [List.countP_eq_zero]
        intro a ha hqa
        exact hnd.1 ((hq e he).symm ▸ (hq a hqa) ▸ List.mem_map_of_mem _ ha)
      rw [hz, if_pos ⟨e, List.mem_cons_self _ _, he⟩]
    · rw [List.countP_cons_of_neg _ _ he, ih hnd.2]
      by_cases hex : ∃ a ∈ rest, q a = true
      · rw [if_pos hex, if_pos (by
          obtain ⟨a, ha, hqa⟩ := hex
          exact ⟨a, List.mem_cons_of_mem _ ha, hqa⟩)]
      · rw [if_neg hex, if_neg (by
          intro hc
          obtain ⟨a, ha, hqa⟩ := hc
          rcases List.mem_cons.mp ha with h1 | h1
          · exact he (h1 ▸ hqa)
          · exact hex ⟨a, h1, hqa⟩)]

theorem file_error_count (owner : Nat → Option Nat) (f : DObj)
    (hnames : (f.globs.map (fun e => e.name)).Nodup)
    (a s : Nat) (o : Option Nat) :
    (f.globs.filterMap (dup_error_here owner f.id)).count (a, o, s) =
      if f.id = a ∧ owner s = o ∧ o ≠ some a ∧ strong_def f s
      then 1 else 0 := by
  rw [List.count_filterMap]
  by_cases hfa : f.id = a
  · subst hfa
    have hq : ∀ e, (dup_error_here owner f.id e == some (f.id, o, s)) = true →
        e.name = s := by
      intro e he
      unfold dup_error_here at he
      split at he
      · rw [beq_iff_eq] at he
        exact congrArg (fun p => p.2.2) (Option.some.inj he)
      · simp at he
    rw [countP_nodup_names s _ hq f.globs hnames]
    by_cases hcond : owner s = o ∧ o ≠ some f.id ∧ strong_def f s
    · have hex : ∃ e ∈ f.globs,
          (dup_error_here owner f.id e == some (f.id, o, s)) = true := by
        obtain ⟨e, he, hn, h1, h2, h3, h4⟩ := hcond.2.2
        refine ⟨e, he, ?_⟩
        unfold dup_error_here
        rw [if_pos ⟨by rw [hn, hcond.1]; exact hcond.2.1, h1, h2, h3, h4⟩]
        rw [beq_iff_eq, hn, hcond.1]
      have hiff : f.id = f.id ∧ owner s = o ∧ o ≠ some f.id ∧
          strong_def f s := ⟨rfl, hcond.1, hcond.2.1, hcond.2.2⟩
      rw [if_pos hex, if_pos hiff]
    · have hnex : ¬ ∃ e ∈ f.globs,
          (dup_error_here owner f.id e == some (f.id, o, s)) = true := by
        intro hc
        obtain ⟨e, he, heq⟩ := hc
        unfold dup_error_here at heq
        split at heq
        · rename_i hcnd
          rw [beq_iff_eq] at heq
          have h0 := Option.some.inj heq
          have h1 : owner e.name = o := congrArg (fun p => p.2.1) h0
          have h2 : e.name = s := congrArg (fun p => p.2.2) h0
          apply hcond
          refine ⟨by rw [← h2]; exact h1, ?_, e, he, h2, hcnd.2.1,
            hcnd.2.2.1, hcnd.2.2.2.1, hcnd.2.2.2.2⟩
          rw [← h1]
          exact hcnd.1
        · simp at heq
      have hneg2 : ¬ (f.id = f.id ∧ owner s = o ∧ o ≠ some f.id ∧
          strong_def f s) := fun hc => hcond ⟨hc.2.1, hc.2.2.1, hc.2.2.2⟩
      rw [if_neg hnex, if_neg hneg2]
  · rw [if_neg (fun hc => hfa hc.1)]
    rw [List.countP_eq_zero]
    intro e _ he
    unfold dup_error_here at he
    split at he
    · rw [beq_iff_eq] at he
      exact hfa (congrArg (fun p => p.1) (Option.some.inj he))
    · simp at he

theorem check_duplicate_symbols_count (owner : Nat → Option Nat)
    (objs : List DObj)
    (hid : (objs.map (fun f => f.id)).Nodup)
    (hnames : ∀ f ∈ objs, (f.globs.map (fun e => e.name)).Nodup)
    (a s : Nat) (o : Option Nat) :
    (check_duplicate_symbols owner objs).count (a, o, s) =
      if ∃ f ∈ objs, f.id = a ∧ owner s = o ∧ o ≠ some a ∧ strong_def f s
      then 1 else 0 := by
  induction objs with
  | nil => simp [check_duplicate_symbols]
  | cons f rest ih =>
    rw [List.map_cons, List.nodup_cons] at hid
    have hrest := ih hid.2 (fun g hg => hnames g (List.mem_cons_of_mem _ hg))
    rw [show check_duplicate_symbols owner (f :: rest) =
      f.globs.filterMap (dup_error_here owner f.id) ++
        check_duplicate_symbols owner rest from rfl]
    rw [List.count_append, hrest,
      file_error_count owner f (hnames f (List.mem_cons_self _ _)) a s o]
    by_cases hfa : f.id = a ∧ owner s = o ∧ o ≠ some a ∧ strong_def f s
    · rw [if_pos hfa]
      have hz : ¬ ∃ g ∈ rest, g.id = a ∧ owner s = o ∧ o ≠ some a ∧
          strong_def g s := by
        intro hc
        obtain ⟨g, hg, hga, _⟩ := hc
        exact hid.1 (hfa.1 ▸ hga ▸ List.mem_map_of_mem _ hg)
      rw [if_neg hz, if_pos ⟨f, List.mem_cons_self _ _, hfa⟩]
    · rw [if_neg hfa]
      by_cases hex : ∃ g ∈ rest, g.id = a ∧ owner s = o ∧ o ≠ some a ∧
          strong_def g s
      · rw [if_pos hex, if_pos (by
          obtain ⟨g, hg, hrest2⟩ := hex
          exact ⟨g, List.mem_cons_of_mem _ hg, hrest2⟩)]
      · rw [if_neg hex, if_neg (by
          intro hc
          obtain ⟨g, hg, hrest2⟩ := hc
          rcases List.mem_cons.mp hg with h1 | h1
          · exact hfa (h1 ▸ hrest2)
          · exact hex ⟨g, h1, hrest2⟩)]

/-- C4 (amended): under distinct file ids and per-file distinct global names,
`check_duplicate_symbols` records, for the reporting file `a`, owner record
`o` and symbol `s`, exactly one error iff some alive file with id `a`
strongly defines `s` and the resolved owner `o` of `s` is a different file;
consequently, for a pair of strong definers one of which is the resolved
owner, exactly one error is recorded for the pair, and a pair of strong
definers neither of which owns the symbol produces no error naming both. -/
theorem check_duplicate_symbols_spec (owner : Nat → Option Nat)
    (objs : List DObj)
    (hid : (objs.map (fun f => f.id)).Nodup)
    (hnames : ∀ f ∈ objs, (f.globs.map (fun e => e.name)).Nodup) :
    (∀ s, ∀ A ∈ objs, ∀ B ∈ objs, A.id ≠ B.id →
      strong_def A s → strong_def B s → owner s = some A.id →
      pair_error_count (check_duplicate_symbols owner objs) A.id B.id s = 1) ∧
    (∀ a s, ∀ o : Option Nat,
      (check_duplicate_symbols owner objs).count (a, o, s) =
        if ∃ f ∈ objs, f.id = a ∧ owner s = o ∧ o ≠ some a ∧ strong_def f s
        then 1 else 0) := by
  refine ⟨?_, fun a s o => check_duplicate_symbols_count owner objs hid
    hnames a s o⟩
  intro s A hA B hB hAB hsA hsB hown
  unfold pair_error_count
  rw [check_duplicate_symbols_count owner objs hid hnames A.id s (some B.id),
    check_duplicate_symbols_count owner objs hid hnames B.id s (some A.id)]
  have hAneg : ¬ ∃ f ∈ objs, f.id = A.id ∧ owner s = some B.id ∧
      some B.id ≠ some A.id ∧ strong_def f s := by
    intro hc
    obtain ⟨g, _, _, hgo, _⟩ := hc
    rw [hown] at hgo
    exact hAB (Option.some.inj hgo)
  have hBpos : ∃ f ∈ objs, f.id = B.id ∧ owner s = some A.id ∧
      some A.id ≠ some B.id ∧ strong_def f s := by
    refine ⟨B, hB, rfl, hown, ?_, hsB⟩
    intro hc
    exact hAB (Option.some.inj hc)
  rw [if_neg hAneg, if_pos hBpos]

/-- The shared strong symbol entry used in the C4 scenarios. -/
def dupSym : ESym := { name := 0, is_abs := true, has_section := false }

/-- Three files that all strongly define symbol 0; file 0 is the resolved
owner. -/
def cexObjsC4 : List DObj :=
  [{ id := 0, globs := [dupSym] }, { id := 1, globs := [dupSym] },
   { id := 2, globs := [dupSym] }]

/-- The resolution outcome for the C4 counterexample: symbol 0 is owned by
file 0 (the lowest-priority strong definer). -/
def cexOwnerC4 : Nat → Option Nat := fun _ => some 0

/-- C4 counterexample: with three alive files all strongly defining symbol 0
and file 0 the resolved owner, files 1 and 2 are a pair of conflicting strong
definitions across distinct files, yet no error is recorded for that pair
(the two recorded errors both name file 0), refuting "exactly one error per
pair". -/
theorem check_duplicate_symbols_cex :
    (∀ f ∈ cexObjsC4, strong_def f 0) ∧
    (∃ A ∈ cexObjsC4, A.id = 1) ∧ (∃ B ∈ cexObjsC4, B.id = 2) ∧
    cexOwnerC4 0 = some 0 ∧
    pair_error_count (check_duplicate_symbols cexOwnerC4 cexObjsC4) 1 2 0
      = 0 := by
  refine ⟨?_, ?_, ?_, rfl, ?_⟩
  · intro f hf
    fin_cases hf <;> decide
  · exact ⟨{ id := 1, globs := [dupSym] }, by decide, rfl⟩
  · exact ⟨{ id := 2, globs := [dupSym] }, by decide, rfl⟩
  · decide

theorem check_duplicate_symbols_spec_witness :
    ((cexObjsC4.map (fun f => f.id)).Nodup ∧
     ∀ f ∈ cexObjsC4, (f.globs.map (fun e => e.name)).Nodup) ∧
    ((∀ s, ∀ A ∈ cexObjsC4, ∀ B ∈ cexObjsC4, A.id ≠ B.id →
      strong_def A s → strong_def B s → cexOwnerC4 s = some A.id →
      pair_error_count (check_duplicate_symbols cexOwnerC4 cexObjsC4)
        A.id B.id s = 1) ∧
    (∀ a s, ∀ o : Option Nat,
      (check_duplicate_symbols cexOwnerC4 cexObjsC4).count (a, o, s) =
        if ∃ f ∈ cexObjsC4, f.id = a ∧ cexOwnerC4 s = o ∧ o ≠ some a ∧
          strong_def f s
        then 1 else 0)) :=
  ⟨⟨by decide, by decide⟩,
   check_duplicate_symbols_spec cexOwnerC4 cexObjsC4 (by decide) (by decide)⟩

/-! ### Symbol versions: `parse_symbol_version` -/

/-- Predefined version index `VER_NDX_LAST_RESERVED` (standard GNU ELF
constant, value 1). -/
def VER_NDX_LAST_RESERVED : Nat := 1

/-- `VERSYM_HIDDEN`, bit 15 of a 16-bit version index (standard GNU ELF
constant). -/
def VERSYM_HIDDEN : Nat := 32768

/-- Embedding of the `verdefs` map construction of `parse_symbol_version`
(passes.cc:503-505): sequential insertion
`verdefs[version_definitions[i]] = i + VER_NDX_LAST_RESERVED + 1` into a map,
later insertions overwriting earlier ones; the value type is `u16`. -/
def build_verdefs (defs : List (List Char)) : List Char → Option Nat :=
  defs.enum.foldl
    (fun m p => fun v =>
      if v = p.2 then some ((p.1 + VER_NDX_LAST_RESERVED + 1) % 65536)
      else m v)
    (fun _ => none)

/-- One global-symbol slot of an object file as seen by
`parse_symbol_version`: the embedded version string (`symvers[i]`, `none` for
null), whether the interned symbol is owned by this file
(`sym->file == file`), and the symbol's current `ver_idx`. -/
structure VSlot where
  symver : Option (List Char)
  owned : Bool := true
  ver_idx : Nat := 1
deriving DecidableEq, Repr

/-- Embedding of the per-slot body of `parse_symbol_version`
(passes.cc:508-534): returns the updated slot and, when the version string is
unknown, the reported (stripped) version string as an error. A leading `@`
marks the default-version form `name@@ver`. -/
def parse_slot (verdefs : List Char → Option Nat) (sl : VSlot) :
    VSlot × Option (List Char) :=
  match sl.symver with
  | none => (sl, none)
  | some sv =>
    if sl.owned = false then (sl, none)
    else
      let is_default := sv.head? == some '@'
      let v := if is_default then sv.tail else sv
      match verdefs v with
      | none => (sl, some v)
      | some idx =>
        ({ sl with ver_idx := if is_default then idx
                              else idx ||| VERSYM_HIDDEN }, none)

/-- Embedding of `parse_symbol_version` (passes.cc:500) over one file's
global slots: the updated slots and the list of unknown-version errors. -/
def parse_symbol_version (defs : List (List Char)) (slots : List VSlot) :
    List VSlot × List (List Char) :=
  (slots.map (fun sl => (parse_slot (build_verdefs defs) sl).1),
   slots.filterMap (fun sl => (parse_slot (build_verdefs defs) sl).2))

theorem build_verdefs_go_notmem (l : List (List Char)) :
    ∀ (k : Nat) (m : List Char → Option Nat) (v : List Char),
    v ∉ l.map (fun p => p) →
    ((l.enumFrom k).foldl
      (fun m p => fun v =>
        if v = p.2 then some ((p.1 + VER_NDX_LAST_RESERVED + 1) % 65536)
        else m v) m) v = m v := by
  induction l with
  | nil => intro k m v _; rfl
  | cons d l ih =>
    intro k m v hv
    simp only [List.map_id_fun', id] at hv
    rw [List.enumFrom_cons, List.foldl_cons]
    rw [ih (k + 1) _ v (by
      simp only [List.map_id_fun', id]
      exact fun hc => hv (List.mem_cons_of_mem _ hc))]
    rw [if_neg (by
      intro hc
      exact hv (by rw [hc]; exact List.mem_cons_self _ _))]

theorem build_verdefs_go_get (l : List (List Char)) :
    ∀ (k : Nat) (m : List Char → Option Nat), l.Nodup →
    ∀ (i : Nat) (hi : i < l.length),
    ((l.enumFrom k).foldl
      (fun m p => fun v =>
        if v = p.2 then some ((p.1 + VER_NDX_LAST_RESERVED + 1) % 65536)
        else m v) m) (l.get ⟨i, hi⟩) =
      some ((k + i + VER_NDX_LAST_RESERVED + 1) % 65536) := by
  induction l with
  | nil => intro _ _ _ i hi; simp at hi
  | cons d l ih =>
    intro k m hnd i hi
    rw [List.nodup_cons] at hnd
    rw [List.enumFrom_cons, List.foldl_cons]
    cases i with
    | zero =>
      have : (d :: l).get ⟨0, hi⟩ = d := rfl
      rw [this, build_verdefs_go_notmem l (k + 1) _ d (by
        simp only [List.map_id_fun', id]
        exact hnd.1)]
      rw [if_pos rfl]
      simp
    | succ j =>
      have : (d :: l).get ⟨j + 1, hi⟩ = l.get ⟨j, by
        rw [List.length_cons] at hi; omega⟩ := rfl
      rw [this, ih (k + 1) _ hnd.2 j _]
      congr 2
      omega

theorem build_verdefs_go_mem (l : List (List Char)) :
    ∀ (k : Nat) (m : List Char → Option Nat) (v : List Char), v ∈ l →
    ∃ j, ((l.enumFrom k).foldl
      (fun m p => fun v =>
        if v = p.2 then some ((p.1 + VER_NDX_LAST_RESERVED + 1) % 65536)
        else m v) m) v = some j := by
  induction l with
  | nil => intro _ _ v hv; simp at hv
  | cons d l ih =>
    intro k m v hv
    rw [List.enumFrom_cons, List.foldl_cons]
    by_cases hvl : v ∈ l
    · exact ih (k + 1) _ v hvl
    · have hvd : v = d := by
        rcases List.mem_cons.mp hv with h | h
        · exact h
        · exact absurd h hvl
      rw [build_verdefs_go_notmem l (k + 1) _ v (by
        simp only [List.map_id_fun', id]; exact hvl)]
      rw [if_pos hvd]
      exact ⟨_, rfl⟩

theorem build_verdefs_get (defs : List (List Char)) (hnd : defs.Nodup)
    (i : Nat) (hi : i < defs.length) :
    build_verdefs defs (defs.get ⟨i, hi⟩) =
      some ((i + VER_NDX_LAST_RESERVED + 1) % 65536) := by
  unfold build_verdefs
  rw [show defs.enum = defs.enumFrom 0 from rfl]
  rw [build_verdefs_go_get defs 0 _ hnd i hi]
  congr 2
  omega

theorem build_verdefs_none_iff (defs : List (List Char)) (v : List Char) :
    build_verdefs defs v = none ↔ v ∉ defs := by
  constructor
  · intro hnone hv
    unfold build_verdefs at hnone
    rw [show defs.enum = defs.enumFrom 0 from rfl] at hnone
    obtain ⟨j, hj⟩ := build_verdefs_go_mem defs 0 (fun _ => none) v hv
    rw [hj] at hnone
    exact Option.noConfusion hnone
  · intro hv
    unfold build_verdefs
    rw [show defs.enum = defs.enumFrom 0 from rfl]
    rw [build_verdefs_go_notmem defs 0 _ v (by
      simp only [List.map_id_fun', id]; exact hv)]

/-- C6 (amended): provided the configured `version_definitions` are pairwise
distinct and fewer than 2^16, the i-th (0-based) entry maps to version index
`i + VER_NDX_LAST_RESERVED + 1` (so the first user version is 2); an owned
symbol with default version form `name@@ver` (stored as `@ver`) gets exactly
that index, one with the plain `name@ver` form additionally ORs in
`VERSYM_HIDDEN`; and an error is recorded iff the (stripped) version string
is not among `version_definitions`, in which case `ver_idx` is unchanged. -/
theorem parse_symbol_version_spec (defs : List (List Char))
    (hnd : defs.Nodup) (hsmall : defs.length + 2 ≤ 65536) :
    (∀ (i : Nat) (hi : i < defs.length),
      build_verdefs defs (defs.get ⟨i, hi⟩) =
        some (i + VER_NDX_LAST_RESERVED + 1)) ∧
    (∀ (sl : VSlot) (sv : List Char) (idx : Nat),
      sl.symver = some ('@' :: sv) → sl.owned = true →
      build_verdefs defs sv = some idx →
      (parse_slot (build_verdefs defs) sl).1.ver_idx = idx ∧
      (parse_slot (build_verdefs defs) sl).2 = none) ∧
    (∀ (sl : VSlot) (sv : List Char) (idx : Nat),
      sl.symver = some sv → sv.head? ≠ some '@' → sl.owned = true →
      build_verdefs defs sv = some idx →
      (parse_slot (build_verdefs defs) sl).1.ver_idx =
        (idx ||| VERSYM_HIDDEN) ∧
      (parse_slot (build_verdefs defs) sl).2 = none) ∧
    (∀ (sl : VSlot) (sv : List Char),
      sl.symver = some ('@' :: sv) → sl.owned = true → sv ∉ defs →
      (parse_slot (build_verdefs defs) sl).1 = sl ∧
      (parse_slot (build_verdefs defs) sl).2 = some sv) ∧
    (∀ (sl : VSlot) (sv : List Char),
      sl.symver = some sv → sv.head? ≠ some '@' → sl.owned = true →
      sv ∉ defs →
      (parse_slot (build_verdefs defs) sl).1 = sl ∧
      (parse_slot (build_verdefs defs) sl).2 = some sv) := by
  refine ⟨?_, ?_, ?_, ?_, ?_⟩
  · intro i hi
    rw [build_verdefs_get defs hnd i hi, Nat.mod_eq_of_lt (by
      unfold VER_NDX_LAST_RESERVED
      omega)]
  · intro sl sv idx hsym hown hfind
    obtain ⟨osym, ow, vi⟩ := sl
    dsimp only at hsym hown
    subst hsym
    subst hown
    simp [parse_slot, hfind]
  · intro sl sv idx hsym hhead hown hfind
    obtain ⟨osym, ow, vi⟩ := sl
    dsimp only at hsym hhead hown
    subst hsym
    subst hown
    have hne : (sv.head? == some '@') = false := by
      rw [beq_eq_false_iff_ne]
      exact hhead
    simp [parse_slot, hne, hfind]
  · intro sl sv hsym hown hmem
    obtain ⟨osym, ow, vi⟩ := sl
    dsimp only at hsym hown
    subst hsym
    subst hown
    have hnone : build_verdefs defs sv = none :=
      (build_verdefs_none_iff defs sv).mpr hmem
    simp [parse_slot, hnone]
  · intro sl sv hsym hhead hown hmem
    obtain ⟨osym, ow, vi⟩ := sl
    dsimp only at hsym hhead hown
    subst hsym
    subst hown
    have hne : (sv.head? == some '@') = false := by
      rw [beq_eq_false_iff_ne]
      exact hhead
    have hnone : build_verdefs defs sv = none :=
      (build_verdefs_none_iff defs sv).mpr hmem
    simp [parse_slot, hne, hnone]

/-- Duplicate version definitions for the C6 counterexample: `V1` twice. -/
def dupDefs : List (List Char) := [['V', '1'], ['V', '1']]

/-- C6 counterexample: with `version_definitions = [V1, V1]`, the 0-th entry
does not map to index `0 + VER_NDX_LAST_RESERVED + 1 = 2`: the duplicate
insertion overwrites it with 3, and a symbol `f@@V1` receives `ver_idx = 3`. -/
theorem parse_symbol_version_cex :
    dupDefs.get ⟨0, by decide⟩ = ['V', '1'] ∧
    build_verdefs dupDefs ['V', '1'] ≠
      some (0 + VER_NDX_LAST_RESERVED + 1) ∧
    build_verdefs dupDefs ['V', '1'] = some 3 ∧
    (parse_slot (build_verdefs dupDefs)
      { symver := some ['@', 'V', '1'] }).1.ver_idx = 3 := by
  refine ⟨rfl, ?_, ?_, ?_⟩ <;> decide

/-- Witness definitions: a single version `V1`. -/
def wDefs : List (List Char) := [['V', '1']]

theorem parse_symbol_version_spec_witness :
    (wDefs.Nodup ∧ wDefs.length + 2 ≤ 65536) ∧
    ((∀ (i : Nat) (hi : i < wDefs.length),
      build_verdefs wDefs (wDefs.get ⟨i, hi⟩) =
        some (i + VER_NDX_LAST_RESERVED + 1)) ∧
    (∀ (sl : VSlot) (sv : List Char) (idx : Nat),
      sl.symver = some ('@' :: sv) → sl.owned = true →
      build_verdefs wDefs sv = some idx →
      (parse_slot (build_verdefs wDefs) sl).1.ver_idx = idx ∧
      (parse_slot (build_verdefs wDefs) sl).2 = none) ∧
    (∀ (sl : VSlot) (sv : List Char) (idx : Nat),
      sl.symver = some sv → sv.head? ≠ some '@' → sl.owned = true →
      build_verdefs wDefs sv = some idx →
      (parse_slot (build_verdefs wDefs) sl).1.ver_idx =
        (idx ||| VERSYM_HIDDEN) ∧
      (parse_slot (build_verdefs wDefs) sl).2 = none) ∧
    (∀ (sl : VSlot) (sv : List Char),
      sl.symver = some ('@' :: sv) → sl.owned = true → sv ∉ wDefs →
      (parse_slot (build_verdefs wDefs) sl).1 = sl ∧
      (parse_slot (build_verdefs wDefs) sl).2 = some sv) ∧
    (∀ (sl : VSlot) (sv : List Char),
      sl.symver = some sv → sv.head? ≠ some '@' → sl.owned = true →
      sv ∉ wDefs →
      (parse_slot (build_verdefs wDefs) sl).1 = sl ∧
      (parse_slot (build_verdefs wDefs) sl).2 = some sv)) :=
  ⟨⟨by decide, by decide⟩,
   parse_symbol_version_spec wDefs (by decide) (by decide)⟩

/-! ### Version requirements: `fill_verneed` -/

/-- A dynsym entry as seen by `fill_verneed`: whether its owning file is a
DSO, the identity of that file (`sym->file`), the DSO's soname (modelled as an
opaque token compared by the sort), the symbol's `ver_idx`, its index in the
dynamic symbol table, and its version string `sym->get_version()` (an opaque
token). -/
structure VSym where
  is_dso : Bool := true
  fileId : Nat := 0
  soname : Nat := 0
  ver_idx : Nat := 0
  dynsym_idx : Nat := 0
  verstr : Nat := 0
deriving DecidableEq, Repr

/-- Default `VSym` used by positional lookups. -/
def vdflt : VSym := {}

/-- The `erase` filter of `fill_verneed` (passes.cc:634-636): keep dynsym
entries whose owning file is a DSO and whose `ver_idx` exceeds
`VER_NDX_LAST_RESERVED`. -/
def verneed_keep (s : VSym) : Bool :=
  s.is_dso && decide (VER_NDX_LAST_RESERVED < s.ver_idx)

/-- The versioned-symbol list of `fill_verneed`: dynsym entries from index 1
on, filtered by `verneed_keep` (order preserved, as `erase` is stable). -/
def verneed_select (dynsyms : List VSym) : List VSym :=
  (dynsyms.drop 1).filter verneed_keep

/-- The sort key order of `fill_verneed` (passes.cc:641-644): lexicographic
on `(soname, ver_idx)`. -/
def vkey_le (a b : VSym) : Prop :=
  a.soname < b.soname ∨ (a.soname = b.soname ∧ a.ver_idx ≤ b.ver_idx)

instance vkey_le_dec : DecidableRel vkey_le := fun a b => by
  unfold vkey_le
  infer_instance

instance vkey_le_total : IsTotal VSym vkey_le := by
  constructor
  intro a b
  unfold vkey_le
  rcases Nat.lt_trichotomy a.soname b.soname with h | h | h
  · exact Or.inl (Or.inl h)
  · rcases Nat.le_total a.ver_idx b.ver_idx with h2 | h2
    · exact Or.inl (Or.inr ⟨h, h2⟩)
    · exact Or.inr (Or.inr ⟨h.symm, h2⟩)
  · exact Or.inr (Or.inl h)

instance vkey_le_trans : IsTrans VSym vkey_le := by
  constructor
  intro a b c hab hbc
  unfold vkey_le at hab hbc ⊢
  rcases hab with h1 | ⟨he1, hv1⟩ <;> rcases hbc with h2 | ⟨he2, hv2⟩
  · exact Or.inl (Nat.lt_trans h1 h2)
  · exact Or.inl (he2 ▸ h1)
  · exact Or.inl (he1 ▸ h2)
  · exact Or.inr ⟨he1.trans he2, Nat.le_trans hv1 hv2⟩

/-- Modelled from the spec: the `sort` helper of `mold.h` (outside the given
sources) stably sorts the selected symbols by `(soname, ver_idx)`. -/
def verneed_sorted (dynsyms : List VSym) : List VSym :=
  (verneed_select dynsyms).insertionSort vkey_le

/-- An emission event of the `fill_verneed` walk: the start of a `Verneed`
group (recording `vn_file`, the soname) or a `Vernaux` record (its string and
its fresh `vna_other` index). -/
inductive VEvent where
  | group (soname : Nat)
  | aux (verstr : Nat) (idx : Nat)
deriving DecidableEq, Repr

/-- The walk of `fill_verneed` over the sorted list from position 1 on
(passes.cc:689-698): `prev` is the previous symbol, `veridx` the 16-bit
counter; emits group/aux events and the `(dynsym_idx, value)` writes into
`.gnu.version`. -/
def vloop : VSym → Nat → List VSym → List VEvent × List (Nat × Nat)
  | _, _, [] => ([], [])
  | prev, veridx, s :: rest =>
    if s.fileId = prev.fileId then
      if s.ver_idx = prev.ver_idx then
        ((vloop s veridx rest).1,
         (s.dynsym_idx, veridx) :: (vloop s veridx rest).2)
      else
        (VEvent.aux s.verstr ((veridx + 1) % 65536) ::
          (vloop s ((veridx + 1) % 65536) rest).1,
         (s.dynsym_idx, (veridx + 1) % 65536) ::
          (vloop s ((veridx + 1) % 65536) rest).2)
    else
      (VEvent.group s.soname :: VEvent.aux s.verstr ((veridx + 1) % 65536) ::
        (vloop s ((veridx + 1) % 65536) rest).1,
       (s.dynsym_idx, (veridx + 1) % 65536) ::
        (vloop s ((veridx + 1) % 65536) rest).2)

/-- Embedding of `fill_verneed` (passes.cc:624): returns the emitted
group/aux events and the final `.gnu.version` contents. The function returns
early (emitting nothing and leaving `.gnu.version` empty) when the dynsym
table or the selected list is empty; otherwise `.gnu.version` starts as `n`
entries of 1 with slot 0 set to 0, and the walk writes the current counter
into each selected symbol's slot. The counter is the `u16`
`VER_NDX_LAST_RESERVED + |version_definitions|`, pre-incremented at each
`Vernaux`. -/
def fill_verneed (defs_count : Nat) (dynsyms : List VSym) :
    List VEvent × List Nat :=
  match dynsyms with
  | [] => ([], [])
  | _ :: _ =>
    match verneed_sorted dynsyms with
    | [] => ([], [])
    | s0 :: rest =>
      let base := (VER_NDX_LAST_RESERVED + defs_count) % 65536
      ((VEvent.group s0.soname :: VEvent.aux s0.verstr ((base + 1) % 65536) ::
          (vloop s0 ((base + 1) % 65536) rest).1),
       (((s0.dynsym_idx, (base + 1) % 65536) ::
          (vloop s0 ((base + 1) % 65536) rest).2).foldl
         (fun vs p => vs.set p.1 p.2)
         ((List.replicate dynsyms.length 1).set 0 0)))

/-- Vernaux boundaries of the walk relative to a previous symbol: a position
is a boundary when the owning file or the `ver_idx` changes. -/
def vboundaries : VSym → List VSym → List Bool
  | _, [] => []
  | prev, s :: rest =>
    (if s.fileId = prev.fileId ∧ s.ver_idx = prev.ver_idx then false
     else true) :: vboundaries s rest

/-- Verneed (group) boundaries of the walk relative to a previous symbol. -/
def vfileBoundaries : VSym → List VSym → List Bool
  | _, [] => []
  | prev, s :: rest =>
    (if s.fileId = prev.fileId then false else true) ::
      vfileBoundaries s rest

/-- All Vernaux boundaries of a sorted list (position 0 always starts a
group and an aux record). -/
def vbound_all : List VSym → List Bool
  | [] => []
  | s0 :: rest => true :: vboundaries s0 rest

/-- All Verneed boundaries of a sorted list. -/
def vfile_all : List VSym → List Bool
  | [] => []
  | s0 :: rest => true :: vfileBoundaries s0 rest

theorem vboundaries_length (rest : List VSym) :
    ∀ prev, (vboundaries prev rest).length = rest.length := by
  induction rest with
  | nil => intro prev; rfl
  | cons s rest ih =>
    intro prev
    rw [vboundaries, List.length_cons, List.length_cons, ih]

theorem vloop_asn_fst (rest : List VSym) :
    ∀ prev veridx,
    (vloop prev veridx rest).2.map Prod.fst =
      rest.map (fun s => s.dynsym_idx) := by
  induction rest with
  | nil => intro prev veridx; rfl
  | cons s rest ih =>
    intro prev veridx
    by_cases hf : s.fileId = prev.fileId
    · by_cases hv : s.ver_idx = prev.ver_idx
      · rw [vloop, if_pos hf, if_pos hv]
        dsimp only
        rw [List.map_cons, ih]
        rfl
      · rw [vloop, if_pos hf, if_neg hv]
        dsimp only
        rw [List.map_cons, ih]
        rfl
    · rw [vloop, if_neg hf]
      dsimp only
      rw [List.map_cons, ih]
      rfl

theorem countP_id_cons_false (l : List Bool) :
    (false :: l).countP id = l.countP id := by simp

theorem countP_id_cons_true (l : List Bool) :
    (true :: l).countP id = l.countP id + 1 := by simp

theorem vloop_asn (rest : List VSym) :
    ∀ prev veridx, veridx < 65536 →
    (vloop prev veridx rest).2 =
      (List.range rest.length).map (fun i =>
        ((rest.getD i vdflt).dynsym_idx,
         (veridx +
           ((vboundaries prev rest).take (i + 1)).countP id) % 65536)) := by
  induction rest with
  | nil => intro prev veridx _; rfl
  | cons s rest ih =>
    intro prev veridx hv16
    have hrange : List.range (rest.length + 1) =
        0 :: (List.range rest.length).map Nat.succ :=
      List.range_succ_eq_map rest.length
    by_cases hf : s.fileId = prev.fileId
    · by_cases hvx : s.ver_idx = prev.ver_idx
      · rw [vloop, if_pos hf, if_pos hvx]
        dsimp only
        rw [ih s veridx hv16, List.length_cons, hrange, List.map_cons,
          List.map_map]
        rw [vboundaries, if_pos ⟨hf, hvx⟩]
        rw [List.cons_eq_cons]
        refine ⟨by simp [Nat.mod_eq_of_lt hv16], ?_⟩
        apply List.map_congr_left
        intro i hi
        simp only [Function.comp_apply, Nat.succ_eq_add_one,
          List.getD_cons_succ, List.take_succ_cons, countP_id_cons_false,
          Prod.mk.injEq]
      · rw [vloop, if_pos hf, if_neg hvx]
        dsimp only
        rw [ih s ((veridx + 1) % 65536) (Nat.mod_lt _ (by omega)),
          List.length_cons, hrange, List.map_cons, List.map_map]
        rw [vboundaries, if_neg (fun hc => hvx hc.2)]
        rw [List.cons_eq_cons]
        refine ⟨by simp, ?_⟩
        apply List.map_congr_left
        intro i hi
        simp only [Function.comp_apply, Nat.succ_eq_add_one,
          List.getD_cons_succ, List.take_succ_cons, countP_id_cons_true,
          Prod.mk.injEq, Nat.mod_add_mod, true_and]
        omega
    · rw [vloop, if_neg hf]
      dsimp only
      rw [ih s ((veridx + 1) % 65536) (Nat.mod_lt _ (by omega)),
        List.length_cons, hrange, List.map_cons, List.map_map]
      rw [vboundaries, if_neg (fun hc => hf hc.1)]
      rw [List.cons_eq_cons]
      refine ⟨by simp, ?_⟩
      apply List.map_congr_left
      intro i hi
      simp only [Function.comp_apply, Nat.succ_eq_add_one,
        List.getD_cons_succ, List.take_succ_cons, countP_id_cons_true,
        Prod.mk.injEq, Nat.mod_add_mod, true_and]
      omega

theorem vloop_groups (rest : List VSym) :
    ∀ prev veridx,
    (vloop prev veridx rest).1.countP
        (fun e => match e with | VEvent.group _ => true | _ => false) =
      (vfileBoundaries prev rest).countP id := by
  induction rest with
  | nil => intro prev veridx; rfl
  | cons s rest ih =>
    intro prev veridx
    by_cases hf : s.fileId = prev.fileId
    · by_cases hvx : s.ver_idx = prev.ver_idx
      · rw [vloop, if_pos hf, if_pos hvx]
        dsimp only
        rw [ih, vfileBoundaries, if_pos hf,
          List.countP_cons_of_neg _ _ (by simp)]
      · rw [vloop, if_pos hf, if_neg hvx]
        dsimp only
        rw [List.countP_cons_of_neg _ _ (by simp), ih, vfileBoundaries,
          if_pos hf, List.countP_cons_of_neg _ _ (by simp)]
    · rw [vloop, if_neg hf]
      dsimp only
      rw [List.countP_cons_of_pos _ _ (by simp),
        List.countP_cons_of_neg _ _ (by simp), ih, vfileBoundaries,
        if_neg hf, List.countP_cons_of_pos _ _ (by simp)]

theorem vloop_auxes (rest : List VSym) :
    ∀ prev veridx, veridx < 65536 →
    (vloop prev veridx rest).1.filterMap
        (fun e => match e with | VEvent.aux _ i => some i | _ => none) =
      (List.range ((vboundaries prev rest).countP id)).map
        (fun j => (veridx + 1 + j) % 65536) := by
  induction rest with
  | nil => intro prev veridx _; rfl
  | cons s rest ih =>
    intro prev veridx hv16
    by_cases hf : s.fileId = prev.fileId
    · by_cases hvx : s.ver_idx = prev.ver_idx
      · rw [vloop, if_pos hf, if_pos hvx]
        dsimp only
        rw [ih s veridx hv16, vboundaries, if_pos ⟨hf, hvx⟩,
          List.countP_cons_of_neg _ _ (by simp)]
      · rw [vloop, if_pos hf, if_neg hvx]
        dsimp only
        rw [List.filterMap_cons]
        dsimp only
        rw [ih s ((veridx + 1) % 65536) (Nat.mod_lt _ (by omega)),
          vboundaries, if_neg (fun hc => hvx hc.2), countP_id_cons_true,
          List.range_succ_eq_map, List.map_cons, List.map_map]
        rw [List.cons_eq_cons]
        refine ⟨by simp, ?_⟩
        apply List.map_congr_left
        intro j hj
        simp only [Function.comp_apply, Nat.succ_eq_add_one]
        omega
    · rw [vloop, if_neg hf]
      dsimp only
      rw [List.filterMap_cons]
      dsimp only
      rw [List.filterMap_cons]
      dsimp only
      rw [ih s ((veridx + 1) % 65536) (Nat.mod_lt _ (by omega)),
        vboundaries, if_neg (fun hc => hf hc.1), countP_id_cons_true,
        List.range_succ_eq_map, List.map_cons, List.map_map]
      rw [List.cons_eq_cons]
      refine ⟨by simp, ?_⟩
      apply List.map_congr_left
      intro j hj
      simp only [Function.comp_apply, Nat.succ_eq_add_one]
      omega

theorem foldl_set_length (asn : List (Nat × Nat)) :
    ∀ init : List Nat,
    (asn.foldl (fun vs p => vs.set p.1 p.2) init).length = init.length := by
  induction asn with
  | nil => intro init; rfl
  | cons p asn ih =>
    intro init
    rw [List.foldl_cons, ih, List.length_set]

theorem foldl_set_getD_untouched (asn : List (Nat × Nat)) :
    ∀ (init : List Nat) (k d : Nat), (∀ p ∈ asn, p.1 ≠ k) →
    (asn.foldl (fun vs p => vs.set p.1 p.2) init).getD k d =
      init.getD k d := by
  induction asn with
  | nil => intro init k d _; rfl
  | cons p asn ih =>
    intro init k d hne
    rw [List.foldl_cons,
      ih _ k d (fun q hq => hne q (List.mem_cons_of_mem _ hq))]
    rw [List.getD_eq_getElem?_getD,
      List.getElem?_set_ne (hne p (List.mem_cons_self _ _)),
      ← List.getD_eq_getElem?_getD]

theorem foldl_set_getD_mem (asn : List (Nat × Nat)) :
    ∀ (init : List Nat) (k v : Nat), (asn.map Prod.fst).Nodup →
    (k, v) ∈ asn → k < init.length →
    (asn.foldl (fun vs p => vs.set p.1 p.2) init).getD k 0 = v := by
  induction asn with
  | nil => intro init k v _ hm; simp at hm
  | cons p asn ih =>
    intro init k v hnd hm hk
    rw [List.map_cons, List.nodup_cons] at hnd
    rw [List.foldl_cons]
    rcases List.mem_cons.mp hm with h1 | h1
    · have hp1 : p.1 = k := by rw [← h1]
      have hp2 : p.2 = v := by rw [← h1]
      rw [foldl_set_getD_untouched asn _ k 0 (by
        intro q hq hqk
        apply hnd.1
        rw [hp1, ← hqk]
        exact List.mem_map_of_mem Prod.fst hq)]
      rw [List.getD_eq_getElem?_getD, ← hp1,
        List.getElem?_set_self (hp1 ▸ hk)]
      exact hp2
    · exact ih _ k v hnd.2 h1 (by rw [List.length_set]; exact hk)

theorem map_dynsym_idx_eq_range (dynsyms : List VSym)
    (hidx : ∀ (k : Nat) (hk : k < dynsyms.length),
      (dynsyms.get ⟨k, hk⟩).dynsym_idx = k) :
    dynsyms.map (fun s => s.dynsym_idx) = List.range dynsyms.length := by
  apply List.ext_getElem
  · simp
  · intro i h1 h2
    simp only [List.getElem_map, List.getElem_range]
    exact hidx i (by simpa using h1)

theorem sorted_mem_drop (dynsyms : List VSym) :
    ∀ s ∈ verneed_sorted dynsyms, s ∈ dynsyms.drop 1 := by
  intro s hs
  have hperm := List.perm_insertionSort vkey_le (verneed_select dynsyms)
  have hs2 : s ∈ verneed_select dynsyms := hperm.mem_iff.mp hs
  exact (List.mem_filter.mp hs2).1

theorem mem_drop_one_range (n : Nat) :
    ∀ m ∈ (List.range n).drop 1, 1 ≤ m ∧ m < n := by
  cases n with
  | zero => intro m hm; simp at hm
  | succ n =>
    intro m hm
    rw [List.range_succ_eq_map] at hm
    rw [show ((0 : Nat) :: (List.range n).map Nat.succ).drop 1 =
      (List.range n).map Nat.succ from rfl] at hm
    obtain ⟨j, hj, hjm⟩ := List.mem_map.mp hm
    have := List.mem_range.mp hj
    omega

theorem sorted_idx_bounds (dynsyms : List VSym)
    (hidx : ∀ (k : Nat) (hk : k < dynsyms.length),
      (dynsyms.get ⟨k, hk⟩).dynsym_idx = k) :
    ∀ s ∈ verneed_sorted dynsyms,
      1 ≤ s.dynsym_idx ∧ s.dynsym_idx < dynsyms.length := by
  intro s hs
  have hs2 := sorted_mem_drop dynsyms s hs
  have hmem : s.dynsym_idx ∈
      (dynsyms.drop 1).map (fun t => t.dynsym_idx) :=
    List.mem_map_of_mem _ hs2
  rw [List.map_drop, map_dynsym_idx_eq_range dynsyms hidx] at hmem
  exact mem_drop_one_range dynsyms.length s.dynsym_idx hmem

theorem sorted_idx_nodup (dynsyms : List VSym)
    (hidx : ∀ (k : Nat) (hk : k < dynsyms.length),
      (dynsyms.get ⟨k, hk⟩).dynsym_idx = k) :
    ((verneed_sorted dynsyms).map (fun s => s.dynsym_idx)).Nodup := by
  have hperm := List.perm_insertionSort vkey_le (verneed_select dynsyms)
  have hpm := hperm.map (fun s => s.dynsym_idx)
  rw [verneed_sorted, List.Perm.nodup_iff hpm]
  have hsub : List.Sublist
      ((verneed_select dynsyms).map (fun s => s.dynsym_idx))
      ((dynsyms.drop 1).map (fun s => s.dynsym_idx)) :=
    (List.filter_sublist _).map _
  apply hsub.nodup
  rw [List.map_drop, map_dynsym_idx_eq_range dynsyms hidx]
  exact (List.nodup_range _).sublist (List.drop_sublist 1 _)

theorem fill_verneed_asn (defs_count : Nat) (s0 : VSym) (rest : List VSym) :
    ((s0.dynsym_idx,
        ((VER_NDX_LAST_RESERVED + defs_count) % 65536 + 1) % 65536) ::
      (vloop s0 (((VER_NDX_LAST_RESERVED + defs_count) % 65536 + 1) % 65536)
        rest).2) =
      (List.range (s0 :: rest).length).map (fun i =>
        (((s0 :: rest).getD i vdflt).dynsym_idx,
         (VER_NDX_LAST_RESERVED + defs_count +
           ((vbound_all (s0 :: rest)).take (i + 1)).countP id) % 65536)) := by
  rw [vloop_asn rest s0
    (((VER_NDX_LAST_RESERVED + defs_count) % 65536 + 1) % 65536)
    (Nat.mod_lt _ (by omega)),
    List.length_cons, List.range_succ_eq_map, List.map_cons, List.map_map]
  rw [vbound_all]
  rw [List.cons_eq_cons]
  refine ⟨by simp [Nat.mod_add_mod], ?_⟩
  apply List.map_congr_left
  intro i hi
  simp only [Function.comp_apply, Nat.succ_eq_add_one, List.getD_cons_succ,
    List.take_succ_cons, countP_id_cons_true, Prod.mk.injEq, true_and]
  omega

theorem fill_verneed_groups (defs_count : Nat) (s0 : VSym)
    (rest : List VSym) :
    (VEvent.group s0.soname ::
      VEvent.aux s0.verstr
        (((VER_NDX_LAST_RESERVED + defs_count) % 65536 + 1) % 65536) ::
      (vloop s0 (((VER_NDX_LAST_RESERVED + defs_count) % 65536 + 1) % 65536)
        rest).1).countP
        (fun e => match e with | VEvent.group _ => true | _ => false) =
      (vfile_all (s0 :: rest)).countP id := by
  rw [List.countP_cons_of_pos _ _ (by rfl),
    List.countP_cons_of_neg _ _ (by simp),
    vloop_groups, vfile_all, countP_id_cons_true]

theorem fill_verneed_auxes (defs_count : Nat) (s0 : VSym)
    (rest : List VSym) :
    (VEvent.group s0.soname ::
      VEvent.aux s0.verstr
        (((VER_NDX_LAST_RESERVED + defs_count) % 65536 + 1) % 65536) ::
      (vloop s0 (((VER_NDX_LAST_RESERVED + defs_count) % 65536 + 1) % 65536)
        rest).1).filterMap
        (fun e => match e with | VEvent.aux _ i => some i | _ => none) =
      (List.range ((vbound_all (s0 :: rest)).countP id)).map
        (fun j => (VER_NDX_LAST_RESERVED + defs_count + 1 + j) % 65536) := by
  rw [List.filterMap_cons]
  dsimp only
  rw [List.filterMap_cons]
  dsimp only
  rw [vloop_auxes rest s0
    (((VER_NDX_LAST_RESERVED + defs_count) % 65536 + 1) % 65536)
    (Nat.mod_lt _ (by omega))]
  rw [vbound_all, countP_id_cons_true, List.range_succ_eq_map,
    List.map_cons, List.map_map]
  rw [List.cons_eq_cons]
  refine ⟨by simp [Nat.mod_add_mod], ?_⟩
  apply List.map_congr_left
  intro j hj
  simp only [Function.comp_apply, Nat.succ_eq_add_one]
  omega

/-- C7: `fill_verneed` selects exactly the dynsym entries (index 0 excluded)
owned by a DSO with `ver_idx > VER_NDX_LAST_RESERVED`, sorts them by
`(soname, ver_idx)`, and walks the sorted list: one `Verneed` group per
file boundary, one `Vernaux` per `(file, ver_idx)` boundary; the `Vernaux`
records take consecutive counter values starting right after
`VER_NDX_LAST_RESERVED + |version_definitions|` (as `u16`), and every
selected symbol's `.gnu.version` slot receives the counter value of its
position's last boundary, while `versym[0] = 0` and unselected slots keep
the default 1. -/
theorem fill_verneed_spec (defs_count : Nat) (dynsyms : List VSym)
    (hidx : ∀ (k : Nat) (hk : k < dynsyms.length),
      (dynsyms.get ⟨k, hk⟩).dynsym_idx = k) :
    ((verneed_sorted dynsyms).Perm (verneed_select dynsyms) ∧
     List.Sorted vkey_le (verneed_sorted dynsyms)) ∧
    (∀ hne : dynsyms ≠ [], ∀ s0 rest,
      verneed_sorted dynsyms = s0 :: rest →
      ((fill_verneed defs_count dynsyms).2.length = dynsyms.length ∧
       (fill_verneed defs_count dynsyms).2.getD 0 0 = 0) ∧
      (∀ k, 1 ≤ k → k < dynsyms.length →
        (∀ s ∈ verneed_sorted dynsyms, s.dynsym_idx ≠ k) →
        (fill_verneed defs_count dynsyms).2.getD k 0 = 1) ∧
      (∀ i, i < (verneed_sorted dynsyms).length →
        (fill_verneed defs_count dynsyms).2.getD
            ((verneed_sorted dynsyms).getD i vdflt).dynsym_idx 0 =
          (VER_NDX_LAST_RESERVED + defs_count +
            ((vbound_all (verneed_sorted dynsyms)).take (i + 1)).countP id)
            % 65536) ∧
      ((fill_verneed defs_count dynsyms).1.countP
          (fun e => match e with | VEvent.group _ => true | _ => false) =
        (vfile_all (verneed_sorted dynsyms)).countP id) ∧
      ((fill_verneed defs_count dynsyms).1.filterMap
          (fun e => match e with | VEvent.aux _ i => some i | _ => none) =
        (List.range ((vbound_all (verneed_sorted dynsyms)).countP id)).map
          (fun j => (VER_NDX_LAST_RESERVED + defs_count + 1 + j)
            % 65536))) := by
  refine ⟨⟨List.perm_insertionSort _ _, List.sorted_insertionSort _ _⟩, ?_⟩
  intro hne s0 rest hsort
  obtain ⟨d, ds, rfl⟩ : ∃ d ds, dynsyms = d :: ds := by
    cases dynsyms with
    | nil => exact absurd rfl hne
    | cons d ds => exact ⟨d, ds, rfl⟩
  have hred1 : (fill_verneed defs_count (d :: ds)).2 =
      (((s0.dynsym_idx,
          ((VER_NDX_LAST_RESERVED + defs_count) % 65536 + 1) % 65536) ::
        (vloop s0
          (((VER_NDX_LAST_RESERVED + defs_count) % 65536 + 1) % 65536)
          rest).2).foldl (fun vs p => vs.set p.1 p.2)
        ((List.replicate (d :: ds).length 1).set 0 0)) := by
    simp only [fill_verneed, hsort]
  have hred2 : (fill_verneed defs_count (d :: ds)).1 =
      VEvent.group s0.soname ::
        VEvent.aux s0.verstr
          (((VER_NDX_LAST_RESERVED + defs_count) % 65536 + 1) % 65536) ::
        (vloop s0
          (((VER_NDX_LAST_RESERVED + defs_count) % 65536 + 1) % 65536)
          rest).1 := by
    simp only [fill_verneed, hsort]
  have hfst : (((s0.dynsym_idx,
      ((VER_NDX_LAST_RESERVED + defs_count) % 65536 + 1) % 65536) ::
      (vloop s0 (((VER_NDX_LAST_RESERVED + defs_count) % 65536 + 1) % 65536)
        rest).2).map Prod.fst) =
      (s0 :: rest).map (fun s => s.dynsym_idx) := by
    rw [List.map_cons, vloop_asn_fst, List.map_cons]
  have hnodup_idx := sorted_idx_nodup (d :: ds) hidx
  rw [hsort] at hnodup_idx
  have hbounds := sorted_idx_bounds (d :: ds) hidx
  rw [hsort] at hbounds
  have hnodup_fst : (((s0.dynsym_idx,
      ((VER_NDX_LAST_RESERVED + defs_count) % 65536 + 1) % 65536) ::
      (vloop s0 (((VER_NDX_LAST_RESERVED + defs_count) % 65536 + 1) % 65536)
        rest).2).map Prod.fst).Nodup := by
    rw [hfst]
    exact hnodup_idx
  have hinitlen : ((List.replicate (d :: ds).length 1).set 0 0).length =
      (d :: ds).length := by
    rw [List.length_set, List.length_replicate]
  refine ⟨⟨?_, ?_⟩, ?_, ?_, ?_, ?_⟩
  · rw [hred1, foldl_set_length, hinitlen]
  · rw [hred1, foldl_set_getD_untouched _ _ 0 0 (by
      intro p hp
      have hmem : p.1 ∈ (s0 :: rest).map (fun s => s.dynsym_idx) := by
        rw [← hfst]
        exact List.mem_map_of_mem Prod.fst hp
      obtain ⟨s, hsmem, hseq⟩ := List.mem_map.mp hmem
      have := (hbounds s hsmem).1
      omega)]
    rw [List.getD_eq_getElem?_getD,
      List.getElem?_set_self (by rw [List.length_replicate]; simp)]
    rfl
  · intro k hk1 hk2 hknot
    rw [hsort] at hknot
    rw [hred1, foldl_set_getD_untouched _ _ k 0 (by
      intro p hp
      have hmem : p.1 ∈ (s0 :: rest).map (fun s => s.dynsym_idx) := by
        rw [← hfst]
        exact List.mem_map_of_mem Prod.fst hp
      obtain ⟨s, hsmem, hseq⟩ := List.mem_map.mp hmem
      rw [← hseq]
      exact hknot s hsmem)]
    rw [List.getD_eq_getElem?_getD, List.getElem?_set_ne (by omega),
      List.getElem?_replicate, if_pos hk2]
    rfl
  · intro i hi
    rw [hsort] at hi ⊢
    rw [hred1]
    apply foldl_set_getD_mem _ _ _ _ hnodup_fst
    · rw [fill_verneed_asn defs_count s0 rest]
      exact List.mem_map_of_mem _ (List.mem_range.mpr hi)
    · rw [hinitlen]
      have hmem2 : (s0 :: rest).getD i vdflt ∈ (s0 :: rest) := by
        rw [List.getD_eq_getElem _ _ hi]
        exact List.getElem_mem hi
      exact (hbounds _ hmem2).2
  · rw [hred2, hsort]
    exact fill_verneed_groups defs_count s0 rest
  · rw [hred2, hsort]
    exact fill_verneed_auxes defs_count s0 rest

/-- Witness dynsym entry 0 (the null symbol). -/
def wVd0 : VSym := { is_dso := false }

/-- Witness dynsym entry 1: DSO-owned, version index 3. -/
def wVd1 : VSym :=
  { is_dso := true, fileId := 7, soname := 5, ver_idx := 3,
    dynsym_idx := 1, verstr := 40 }

/-- Witness dynsym entry 2: same DSO, version index 2. -/
def wVd2 : VSym :=
  { is_dso := true, fileId := 7, soname := 5, ver_idx := 2,
    dynsym_idx := 2, verstr := 41 }

/-- Witness dynsym table. -/
def wDynsyms : List VSym := [wVd0, wVd1, wVd2]

theorem fill_verneed_spec_witness :
    (∀ (k : Nat) (hk : k < wDynsyms.length),
      (wDynsyms.get ⟨k, hk⟩).dynsym_idx = k) ∧
    (((verneed_sorted wDynsyms).Perm (verneed_select wDynsyms) ∧
     List.Sorted vkey_le (verneed_sorted wDynsyms)) ∧
    (∀ hne : wDynsyms ≠ [], ∀ s0 rest,
      verneed_sorted wDynsyms = s0 :: rest →
      ((fill_verneed 1 wDynsyms).2.length = wDynsyms.length ∧
       (fill_verneed 1 wDynsyms).2.getD 0 0 = 0) ∧
      (∀ k, 1 ≤ k → k < wDynsyms.length →
        (∀ s ∈ verneed_sorted wDynsyms, s.dynsym_idx ≠ k) →
        (fill_verneed 1 wDynsyms).2.getD k 0 = 1) ∧
      (∀ i, i < (verneed_sorted wDynsyms).length →
        (fill_verneed 1 wDynsyms).2.getD
            ((verneed_sorted wDynsyms).getD i vdflt).dynsym_idx 0 =
          (VER_NDX_LAST_RESERVED + 1 +
            ((vbound_all (verneed_sorted wDynsyms)).take (i + 1)).countP id)
            % 65536) ∧
      ((fill_verneed 1 wDynsyms).1.countP
          (fun e => match e with | VEvent.group _ => true | _ => false) =
        (vfile_all (verneed_sorted wDynsyms)).countP id) ∧
      ((fill_verneed 1 wDynsyms).1.filterMap
          (fun e => match e with | VEvent.aux _ i => some i | _ => none) =
        (List.range ((vbound_all (verneed_sorted wDynsyms)).countP id)).map
          (fun j => (VER_NDX_LAST_RESERVED + 1 + 1 + j) % 65536)))) := by
  have hidx : ∀ (k : Nat) (hk : k < wDynsyms.length),
      (wDynsyms.get ⟨k, hk⟩).dynsym_idx = k := by
    intro k hk
    have hk3 : k < 3 := hk
    interval_cases k <;> rfl
  exact ⟨hidx, fill_verneed_spec 1 wDynsyms hidx⟩

end Mold
